import Mathlib

/-!
# FloatSlice (floatslice.go): a shallow embedding

A Go slice is a window on a backing array: a start, a length and a capacity.
The embedding keeps the cells of the backing array from the slice's first
element up to its capacity (`arr`) and the length (`len`); the capacity is
`arr.length`.  Cells at positions `len ..` are the spare capacity: they hold
whatever earlier operations left there.

Elements are opaque values of a type `α` (float64 in the source); the
operations only move them.  `default` stands for the zero value that a freshly
allocated array holds.

`int` arguments are `Int`.  Lengths are bounded by addressable memory, so
`len(*s) + len(e)` never overflows, and `index + len(e)` can only overflow for
`index > len(*s)`, where the wrapped (negative) value is rejected by the same
bounds check that rejects the exact one (`sliceFrom_wrapInt`); the sum is
therefore kept exact.

Variadic arguments are lists of values: their storage is taken to be disjoint
from the receiver's backing array, as it is when the values are written out in
the call.  For `Insert` the file also has the general case, `InsertShared`: the
argument is a slice whose cells may be cells of the receiver's backing array,
and `copy` reads them when it runs.  The built-in `append` and `copy` behave as
if the source were read in full before the first write.

The capacity chosen by `append` when it has to reallocate belongs to the Go
runtime; it is the parameter `g` (old capacity, needed length), and the new
capacity is never smaller than the needed length.

The file also embeds `DeepestNested` (misc.go), over error values whose chains
of `*NestedError` are finite and may hold nil pointers, and the two reference
insertions of the benchmarks (floatslice_test.go).  The sort adapter with its binary search
and the binary-heap priority queue have no source in the repository snapshot
(only their tests); they are modelled from the specification, and every such
definition says so.
-/

namespace Villa

/-- The two run-time panics the slice operations can raise. -/
inductive RuntimeError where
  | indexOutOfRange
  | sliceBoundsOutOfRange
deriving DecidableEq, Repr

/-- Result of a method call: a normal return with the returned value, or a
panic; both carry the receiver as the call left it. -/
inductive Outcome (ρ σ : Type) where
  | ok (ret : ρ) (s : σ)
  | panic (err : RuntimeError) (s : σ)
deriving DecidableEq, Repr

/-- The type `FloatSlice`, a `[]float64`: backing cells from the first element to the
capacity, and the length. -/
structure FloatSlice (α : Type) where
  arr : List α
  len : Nat
deriving DecidableEq, Repr

/-- A sub-slice of a slice: offset of its first cell and its length. -/
structure View where
  off : Nat
  len : Nat
deriving DecidableEq, Repr

variable {α : Type}

/-- Capacity `cap(s)`. -/
def FloatSlice.cap (s : FloatSlice α) : Nat := s.arr.length

/-- The elements of the slice, `s[0], ..., s[len(s)-1]`. -/
def FloatSlice.elems (s : FloatSlice α) : List α := s.arr.take s.len

/-- Slice well-formedness: `len(s) <= cap(s)`. -/
def FloatSlice.WF (s : FloatSlice α) : Prop := s.len ≤ s.cap

instance (s : FloatSlice α) : Decidable s.WF :=
  inferInstanceAs (Decidable (s.len ≤ s.cap))

/-- The nil slice. -/
def FloatSlice.nil : FloatSlice α := ⟨[], 0⟩

/-- The `n` cells of a backing array that start at `off`. -/
def window (arr : List α) (off n : Nat) : List α := (arr.drop off).take n

/-- The backing array after `vals` is written to the cells `off, off+1, ...`. -/
def store (arr : List α) (off : Nat) (vals : List α) : List α :=
  arr.take off ++ vals ++ arr.drop (off + vals.length)

/-- Slice expression `s[lo:hi]`: needs `0 <= lo <= hi <= cap(s)`. -/
def slice (s : FloatSlice α) (lo hi : Int) : Option View :=
  if 0 ≤ lo ∧ lo ≤ hi ∧ hi ≤ (s.cap : Int) then some ⟨lo.toNat, (hi - lo).toNat⟩ else none

/-- Two's-complement wrap of an exact sum to a 64-bit `int`. -/
def wrapInt (x : Int) : Int := (x + 2 ^ 63) % 2 ^ 64 - 2 ^ 63

/-- Slice expression `s[lo:]`, that is `s[lo:len(s)]`. -/
def sliceFrom (s : FloatSlice α) (lo : Int) : Option View := slice s lo s.len

/-- Slice expression `s[:hi]`, that is `s[0:hi]`. -/
def sliceTo (s : FloatSlice α) (hi : Int) : Option View := slice s 0 hi

/-- The slice value a view of `s` denotes. -/
def sub (s : FloatSlice α) (v : View) : FloatSlice α := ⟨s.arr.drop v.off, v.len⟩

/-- Index expression `s[i]` read: needs `0 <= i < len(s)`. -/
def index (s : FloatSlice α) (i : Int) : Option α :=
  if 0 ≤ i ∧ i < (s.len : Int) then s.arr[i.toNat]? else none

/-- Built-in `append(s, e...)`: in place when the capacity suffices, else into
a fresh zeroed array of capacity `max needed (g cap needed)`. -/
def goAppend [Inhabited α] (g : Nat → Nat → Nat) (s : FloatSlice α) (e : List α) : FloatSlice α :=
  if s.len + e.length ≤ s.cap then
    ⟨store s.arr s.len e, s.len + e.length⟩
  else
    ⟨s.arr.take s.len ++ e ++
      List.replicate (max (s.len + e.length) (g s.cap (s.len + e.length)) - (s.len + e.length)) default,
      s.len + e.length⟩

/-- Built-in `copy(dst, src)` for two views of the same slice: moves
`min(len(dst), len(src))` cells, correct under overlap. -/
def copyWithin (s : FloatSlice α) (dst src : View) : FloatSlice α :=
  ⟨store s.arr dst.off (window s.arr src.off (min dst.len src.len)), s.len⟩

/-- Built-in `copy(dst, e)` for a view of the slice and a separate list. -/
def copyFrom (s : FloatSlice α) (dst : View) (e : List α) : FloatSlice α :=
  ⟨store s.arr dst.off (e.take (min dst.len e.length)), s.len⟩

/-- Method `Add`: `*s = append(*s, e...)`. -/
def FloatSlice.Add [Inhabited α] (g : Nat → Nat → Nat) (s : FloatSlice α) (e : List α) :
    FloatSlice α :=
  goAppend g s e

/-- Lines 21-22 of `Insert`, the two `copy` calls on the lengthened slice:
`copy((*s)[index+len(e):], (*s)[index:])` then `copy((*s)[index:], e[:])`. -/
def insertCopy (s1 : FloatSlice α) (index : Int) (e : List α) : Outcome Unit (FloatSlice α) :=
  match sliceFrom s1 (index + (e.length : Int)) with
  | none => .panic .sliceBoundsOutOfRange s1
  | some dst =>
    match sliceFrom s1 index with
    | none => .panic .sliceBoundsOutOfRange s1
    | some src =>
      let s2 := copyWithin s1 dst src
      match sliceFrom s2 index with
      | none => .panic .sliceBoundsOutOfRange s2
      | some dst2 => .ok () (copyFrom s2 dst2 e)

/-- Method `Insert`: lengthen in place when `cap(*s) >= len(*s) + len(e)`,
else `append`; then shift the tail and write the new elements.  Here `e` is a
list of values, for calls whose arguments have storage of their own;
`FloatSlice.InsertShared` is the same method for an `e` that shares cells with
the receiver. -/
def FloatSlice.Insert [Inhabited α] (g : Nat → Nat → Nat) (s : FloatSlice α) (index : Int)
    (e : List α) : Outcome Unit (FloatSlice α) :=
  if s.cap ≥ s.len + e.length then
    match sliceTo s ((s.len + e.length : Nat) : Int) with
    | none => .panic .sliceBoundsOutOfRange s
    | some v => insertCopy (sub s v) index e
  else insertCopy (goAppend g s e) index e

/-- One cell of the storage of a slice passed as `e...`: a cell that is not in
the receiver's backing array, with the value it holds, or cell `j` of the
receiver's backing array, counted from the receiver's first element
(`j < cap(*s)`). -/
inductive ArgCell (α : Type) where
  | outside (v : α)
  | shared (j : Nat)
deriving DecidableEq, Repr

/-- The value an argument cell holds while the receiver's backing array is `arr`. -/
def ArgCell.read [Inhabited α] (arr : List α) : ArgCell α → α
  | .outside v => v
  | .shared j => arr[j]?.getD default

/-- The elements `e[0], e[1], ...` while the receiver's backing array is `arr`. -/
def readArgs [Inhabited α] (arr : List α) (e : List (ArgCell α)) : List α :=
  e.map (ArgCell.read arr)

/-- Lines 21-22 of `Insert` when `e` may share cells with the backing array of
the lengthened slice: `copy((*s)[index+len(e):], (*s)[index:])` writes the
array, and `copy((*s)[index:], e[:])` then reads the cells of `e` as the first
copy left them. -/
def insertCopyShared [Inhabited α] (s1 : FloatSlice α) (index : Int) (e : List (ArgCell α)) :
    Outcome Unit (FloatSlice α) :=
  match sliceFrom s1 (index + (e.length : Int)) with
  | none => .panic .sliceBoundsOutOfRange s1
  | some dst =>
    match sliceFrom s1 index with
    | none => .panic .sliceBoundsOutOfRange s1
    | some src =>
      let s2 := copyWithin s1 dst src
      match sliceFrom s2 index with
      | none => .panic .sliceBoundsOutOfRange s2
      | some dst2 => .ok () (copyFrom s2 dst2 (readArgs s2.arr e))

/-- Method `Insert` called as `s.Insert(index, e...)` with a slice `e` whose
cells may be cells of the receiver's backing array.  In the first branch the
slice is lengthened in place and `e` goes on sharing its array.  In the second
branch `append` reads `e` and moves the receiver to a fresh array; `e` keeps the
old array, which nothing writes afterwards, so its elements stay the values
read at the call. -/
def FloatSlice.InsertShared [Inhabited α] (g : Nat → Nat → Nat) (s : FloatSlice α)
    (index : Int) (e : List (ArgCell α)) : Outcome Unit (FloatSlice α) :=
  if s.cap ≥ s.len + e.length then
    match sliceTo s ((s.len + e.length : Nat) : Int) with
    | none => .panic .sliceBoundsOutOfRange s
    | some v => insertCopyShared (sub s v) index e
  else insertCopy (goAppend g s (readArgs s.arr e)) index (readArgs s.arr e)

/-- The elements of `e` as the second `copy` of `Insert` reads them: after the
tail shift when the slice was lengthened in place, as at the call otherwise. -/
def argValues [Inhabited α] (s : FloatSlice α) (n : Nat) (e : List (ArgCell α)) : List α :=
  if s.cap ≥ s.len + e.length then
    readArgs (store s.arr (n + e.length) (window s.arr n (s.len - n))) e
  else readArgs s.arr e

/-- Method `Swap`: `s[i], s[j] = s[j], s[i]`; both reads precede both writes. -/
def FloatSlice.Swap (s : FloatSlice α) (i j : Int) : Outcome Unit (FloatSlice α) :=
  match index s j with
  | none => .panic .indexOutOfRange s
  | some vj =>
    match index s i with
    | none => .panic .indexOutOfRange s
    | some vi => .ok () ⟨(s.arr.set i.toNat vj).set j.toNat vi, s.len⟩

/-- Method `Remove`: `e := (*s)[index]; *s = append((*s)[0:index], (*s)[index+1:]...)`. -/
def FloatSlice.Remove [Inhabited α] (g : Nat → Nat → Nat) (s : FloatSlice α) (i : Int) :
    Outcome α (FloatSlice α) :=
  match index s i with
  | none => .panic .indexOutOfRange s
  | some e =>
    match slice s 0 i with
    | none => .panic .sliceBoundsOutOfRange s
    | some d =>
      match sliceFrom s (i + 1) with
      | none => .panic .sliceBoundsOutOfRange s
      | some t => .ok e (goAppend g (sub s d) (window s.arr t.off t.len))

/-- Method `RemoveRange`: `*s = append((*s)[0:from], (*s)[to:]...)`. -/
def FloatSlice.RemoveRange [Inhabited α] (g : Nat → Nat → Nat) (s : FloatSlice α)
    (frm til : Int) : Outcome Unit (FloatSlice α) :=
  match slice s 0 frm with
  | none => .panic .sliceBoundsOutOfRange s
  | some d =>
    match sliceFrom s til with
    | none => .panic .sliceBoundsOutOfRange s
    | some t => .ok () (goAppend g (sub s d) (window s.arr t.off t.len))

/-- The loop of `Fill`, from the current value of `i`:
`for ; i < to; i++ { s[i] = vl }`. -/
def fillLoop (s : FloatSlice α) (i til : Int) (vl : α) : Outcome Unit (FloatSlice α) :=
  if i < til then
    if 0 ≤ i ∧ i < (s.len : Int) then
      fillLoop ⟨s.arr.set i.toNat vl, s.len⟩ (i + 1) til vl
    else .panic .indexOutOfRange s
  else .ok () s
termination_by (til - i).toNat
decreasing_by omega

/-- Method `Fill`. -/
def FloatSlice.Fill (s : FloatSlice α) (frm til : Int) (vl : α) : Outcome Unit (FloatSlice α) :=
  fillLoop s frm til vl

/-- Method `Clear`: `*s = (*s)[:0]`. -/
def FloatSlice.Clear (s : FloatSlice α) : Outcome Unit (FloatSlice α) :=
  match sliceTo s 0 with
  | none => .panic .sliceBoundsOutOfRange s
  | some v => .ok () (sub s v)

/-! ## Sequences of calls -/

/-- One call in a sequence of `Add`, `Insert`, `Remove` and `RemoveRange` calls. -/
inductive Op (α : Type) where
  | add (e : List α)
  | insert (index : Int) (e : List α)
  | remove (index : Int)
  | removeRange (frm til : Int)
deriving DecidableEq, Repr

/-- Performs one call on the slice; the value returned by `Remove` is dropped. -/
def Op.run [Inhabited α] (g : Nat → Nat → Nat) (s : FloatSlice α) :
    Op α → Outcome Unit (FloatSlice α)
  | .add e => .ok () (s.Add g e)
  | .insert i e => s.Insert g i e
  | .remove i =>
    match s.Remove g i with
    | .ok _ s2 => .ok () s2
    | .panic err s2 => .panic err s2
  | .removeRange a b => s.RemoveRange g a b

/-- Performs the calls in order, stopping at the first panic. -/
def runOps [Inhabited α] (g : Nat → Nat → Nat) (s : FloatSlice α) :
    List (Op α) → Outcome Unit (FloatSlice α)
  | [] => .ok () s
  | op :: ops =>
    match op.run g s with
    | .ok _ s2 => runOps g s2 ops
    | .panic err s2 => .panic err s2

/-- The arguments of a call are within bounds for a slice of length `len`. -/
def Op.inBounds (len : Nat) : Op α → Bool
  | .add _ => true
  | .insert i _ => decide (0 ≤ i ∧ i ≤ (len : Int))
  | .remove i => decide (0 ≤ i ∧ i < (len : Int))
  | .removeRange a b => decide (0 ≤ a ∧ a ≤ b ∧ b ≤ (len : Int))

/-- Number of elements a call passes to `Add` or `Insert`. -/
def Op.inserted : Op α → Int
  | .add e => e.length
  | .insert _ e => e.length
  | .remove _ => 0
  | .removeRange _ _ => 0

/-- Number of elements a call removes: 1 per `Remove`, `to - from` per `RemoveRange`. -/
def Op.removed : Op α → Int
  | .add _ => 0
  | .insert _ _ => 0
  | .remove _ => 1
  | .removeRange a b => b - a

/-- Every call of the sequence has its arguments within bounds for the length
the slice has when the call is made, starting from length `len`. -/
def allInBounds (len : Nat) : List (Op α) → Bool
  | [] => true
  | op :: ops => op.inBounds len && allInBounds ((len : Int) + op.inserted - op.removed).toNat ops

/-- Total number of elements passed to `Add` and `Insert`. -/
def totalInserted (ops : List (Op α)) : Int := (ops.map Op.inserted).sum

/-- Total number of elements removed. -/
def totalRemoved (ops : List (Op α)) : Int := (ops.map Op.removed).sum

/-! ## Comparators -/

/-- A comparator `less` that is a strict weak ordering: irreflexive, transitive,
and with transitive incomparability (incomparable elements behave as equal). -/
structure StrictWeakOrder (less : α → α → Bool) : Prop where
  irrefl : ∀ a, less a a = false
  trans : ∀ a b c, less a b = true → less b c = true → less a c = true
  incomp_trans : ∀ a b c, less a b = false → less b a = false → less b c = false →
    less c b = false → less a c = false ∧ less c a = false

/-- Equality under the comparator: neither `less a b` nor `less b a`. -/
def equivUnder (less : α → α → Bool) (a b : α) : Prop := less a b = false ∧ less b a = false

/-- Ascending order per the comparator: for `i < j`, `less seq[j] seq[i]` is false. -/
def SortedBy (less : α → α → Bool) (l : List α) : Prop :=
  l.Pairwise (fun a b => less b a = false)

/-! ## Sort adapter -/

/-- Modelled from the spec: the sort adapter (`NewSortList` is not under src/, only
its callers in floatslice_test.go are): a sequence together with a comparator. -/
structure SortList (α : Type) where
  less : α → α → Bool
  list : List α

/-- Modelled from the spec: the loop of `BinarySearch` (not under src/), a search
for the leftmost position whose element does not compare `less` than `target`,
halving the interval `[lo, hi)` at each step. -/
def binarySearchLoop (less : α → α → Bool) (l : List α) (target : α) (lo hi : Nat)
    (hhi : hi ≤ l.length) : Nat :=
  if h : lo < hi then
    have hmid : lo + (hi - lo) / 2 < l.length := by omega
    if less l[lo + (hi - lo) / 2] target then
      binarySearchLoop less l target (lo + (hi - lo) / 2 + 1) hi hhi
    else
      binarySearchLoop less l target lo (lo + (hi - lo) / 2) (by omega)
  else lo
termination_by hi - lo
decreasing_by all_goals omega

/-- Modelled from the spec: `BinarySearch(target)` of the sort adapter (not under
src/): the leftmost insertion position, and whether the element there is equal
to `target` under the comparator. -/
def SortList.BinarySearch (a : SortList α) (target : α) : Nat × Bool :=
  let p := binarySearchLoop a.less a.list target 0 a.list.length (Nat.le_refl _)
  match a.list[p]? with
  | some x => (p, !a.less x target && !a.less target x)
  | none => (p, false)

/-! ## Priority queue -/

/-- Modelled from the spec: the binary-heap priority queue (`NewPriorityQueue`,
`NewIntPriorityQueue` and their methods are not under src/, only their tests
are): the comparator and the backing sequence.  The tests fix the direction:
with `less` the usual `<`, `Pop` yields ascending values, so the root is the
minimum under `less`. -/
structure PriorityQueue (α : Type) where
  less : α → α → Bool
  list : List α

/-- Modelled from the spec: the typed queue of `NewIntPriorityQueue` (not under
src/), the same structure at element type `int`. -/
abbrev IntPriorityQueue := PriorityQueue Int

/-- Result of `Peek` and `Pop`: a value, or the explicit empty-queue error; both
carry the queue as the call left it. -/
inductive QueueResult (α : Type) where
  | value (v : α) (q : PriorityQueue α)
  | emptyQueue (q : PriorityQueue α)

/-- Modelled from the spec: sift-up of `Push` (not under src/): while the element
at `i` compares `less` than its parent at `(i-1)/2`, swap them and go on from
the parent. -/
def siftUp (less : α → α → Bool) (l : List α) (i : Nat) : List α :=
  if _h : 0 < i then
    match l[i]?, l[(i - 1) / 2]? with
    | some x, some y =>
      if less x y then siftUp less ((l.set i y).set ((i - 1) / 2) x) ((i - 1) / 2) else l
    | _, _ => l
  else l
termination_by i
decreasing_by omega

/-- Modelled from the spec: sift-down of `Pop` and of construction (not under
src/): compare the two children, take the one that should be closer to the
root, swap it with the node at `i` if it compares `less` than the node, and go
on from that child; stop when there is no violation or at a leaf. -/
def siftDown (less : α → α → Bool) (l : List α) (i : Nat) : List α :=
  match l[i]?, hl : l[2 * i + 1]? with
  | some x, some y =>
    match hr : l[2 * i + 2]? with
    | some z =>
      if less z y then
        if less z x then siftDown less ((l.set i z).set (2 * i + 2) x) (2 * i + 2) else l
      else
        if less y x then siftDown less ((l.set i y).set (2 * i + 1) x) (2 * i + 1) else l
    | none =>
      if less y x then siftDown less ((l.set i y).set (2 * i + 1) x) (2 * i + 1) else l
  | _, _ => l
termination_by l.length - i
decreasing_by
  all_goals simp_wf
  · have h1 := (List.getElem?_eq_some.1 hr).1
    omega
  · have h1 := (List.getElem?_eq_some.1 hl).1
    omega
  · have h1 := (List.getElem?_eq_some.1 hl).1
    omega

/-- Modelled from the spec: bottom-up heapify (not under src/): sift down the
nodes `k-1, ..., 0`. -/
def heapifyFrom (less : α → α → Bool) : Nat → List α → List α
  | 0, l => l
  | k + 1, l => heapifyFrom less k (siftDown less l k)

/-- Modelled from the spec: construction (not under src/) from a comparator and
initial elements (none for an empty queue), heapified from the last internal
node to the root. -/
def NewPriorityQueue (less : α → α → Bool) (seed : List α) : PriorityQueue α :=
  ⟨less, heapifyFrom less (seed.length / 2) seed⟩

/-- Modelled from the spec: `NewIntPriorityQueue` (not under src/). -/
def NewIntPriorityQueue (less : Int → Int → Bool) (seed : List Int) : IntPriorityQueue :=
  NewPriorityQueue less seed

/-- Modelled from the spec: `Len()` (not under src/). -/
def PriorityQueue.Len (q : PriorityQueue α) : Nat := q.list.length

/-- Modelled from the spec: `Push(value)` (not under src/): append at the end of
the backing sequence, then sift up. -/
def PriorityQueue.Push (q : PriorityQueue α) (v : α) : PriorityQueue α :=
  ⟨q.less, siftUp q.less (q.list ++ [v]) q.list.length⟩

/-- Modelled from the spec: `Peek()` (not under src/): the root, without removing
it; the empty-queue error when the size is 0. -/
def PriorityQueue.Peek (q : PriorityQueue α) : QueueResult α :=
  match q.list with
  | [] => .emptyQueue q
  | x :: _ => .value x q

/-- Modelled from the spec: `Pop()` (not under src/): capture the root, move the
last element to the root position, shrink by one, sift the new root down; the
empty-queue error when the size is 0. -/
def PriorityQueue.Pop (q : PriorityQueue α) : QueueResult α :=
  match q.list with
  | [] => .emptyQueue q
  | x :: t =>
    .value x ⟨q.less, siftDown q.less (((x :: t).set 0 ((x :: t).getLast (List.cons_ne_nil x t))).dropLast) 0⟩

/-- Pushes the values in order. -/
def pushAll (q : PriorityQueue α) (vs : List α) : PriorityQueue α := vs.foldl PriorityQueue.Push q

/-- Calls `Pop` up to `n` times and collects the values returned, stopping at
the empty-queue error. -/
def popN : Nat → PriorityQueue α → List α
  | 0, _ => []
  | n + 1, q =>
    match q.Pop with
    | .value v q2 => v :: popN n q2
    | .emptyQueue _ => []

/-- The heap property with the root minimal: no element at a non-root index `j`
compares `less` than its parent at `(j-1)/2`. -/
def IsHeap (less : α → α → Bool) (l : List α) : Prop :=
  ∀ j x y, 0 < j → l[j]? = some x → l[(j - 1) / 2]? = some y → less x y = false

/-- The heap property as the claim words it: no parent compares `less` than its
child. -/
def ParentNeverLess (less : α → α → Bool) (l : List α) : Prop :=
  ∀ j x y, 0 < j → l[j]? = some x → l[(j - 1) / 2]? = some y → less y x = false

/-- The heap order holds at every child whose parent has index at least `k0`. -/
def HeapFrom (less : α → α → Bool) (l : List α) (k0 : Nat) : Prop :=
  ∀ j x y, 0 < j → k0 ≤ (j - 1) / 2 → l[j]? = some x → l[(j - 1) / 2]? = some y →
    less x y = false

/-- The state during sift-up at `i`: the heap order holds at every child other
than `i`, and no child of `i` compares `less` than the parent of `i`. -/
def HeapUpAt (less : α → α → Bool) (l : List α) (i : Nat) : Prop :=
  (∀ j x y, 0 < j → j ≠ i → l[j]? = some x → l[(j - 1) / 2]? = some y → less x y = false) ∧
  (∀ j x y, 0 < i → 0 < j → (j - 1) / 2 = i → l[j]? = some x → l[(i - 1) / 2]? = some y →
    less x y = false)

/-- The state during sift-down at `i` (parents from `k0` on): the heap order
holds at every child whose parent is not `i`, and no child of `i` compares
`less` than the parent of `i`. -/
def HeapDownAt (less : α → α → Bool) (l : List α) (k0 i : Nat) : Prop :=
  (∀ j x y, 0 < j → k0 ≤ (j - 1) / 2 → (j - 1) / 2 ≠ i → l[j]? = some x →
    l[(j - 1) / 2]? = some y → less x y = false) ∧
  (∀ j x y, 0 < i → k0 ≤ (i - 1) / 2 → 0 < j → (j - 1) / 2 = i → l[j]? = some x →
    l[(i - 1) / 2]? = some y → less x y = false)

/-- Pushes the values into the queue, then calls `Pop` once per value pushed. -/
def pushThenPop (q : PriorityQueue α) (vs : List α) : List α := popN vs.length (pushAll q vs)

/-- One mutating call on a priority queue. -/
inductive QueueOp (α : Type) where
  | push (v : α)
  | pop

/-- The queue after one call (the value returned by `Pop` is dropped; `Pop` on
an empty queue leaves the queue it reports). -/
def QueueOp.apply (q : PriorityQueue α) : QueueOp α → PriorityQueue α
  | .push v => q.Push v
  | .pop =>
    match q.Pop with
    | .value _ q2 => q2
    | .emptyQueue q2 => q2

/-- The queue after a sequence of calls. -/
def applyOps (q : PriorityQueue α) (ops : List (QueueOp α)) : PriorityQueue α :=
  ops.foldl QueueOp.apply q

/-- The comparator of the tests: the usual `<` on integers. -/
def intLess : Int → Int → Bool := fun a b => decide (a < b)

/-! ## The two reference insertions of the benchmarks (floatslice_test.go) -/

/-- The slice trick of `BenchmarkFloatSliceInsertByAppend`, at a general index:
`s = append(s[:index], append([]float64{v}, s[index:]...)...)`. -/
def insertByAppend [Inhabited α] (g : Nat → Nat → Nat) (s : FloatSlice α) (index : Int)
    (v : α) : Outcome Unit (FloatSlice α) :=
  match sliceTo s index with
  | none => .panic .sliceBoundsOutOfRange s
  | some d =>
    match sliceFrom s index with
    | none => .panic .sliceBoundsOutOfRange s
    | some t =>
      .ok () (goAppend g (sub s d) (goAppend g ⟨[v], 1⟩ (window s.arr t.off t.len)).elems)

/-- The procedure of `BenchmarkFloatSliceInsertByCopy`, at a general index:
`s = append(s, 0); copy(s[index+1:], s[index:]); s[index] = v`. -/
def insertByCopy [Inhabited α] (g : Nat → Nat → Nat) (s : FloatSlice α) (index : Int)
    (v : α) : Outcome Unit (FloatSlice α) :=
  let s1 := goAppend g s [default]
  match sliceFrom s1 (index + 1) with
  | none => .panic .sliceBoundsOutOfRange s1
  | some dst =>
    match sliceFrom s1 index with
    | none => .panic .sliceBoundsOutOfRange s1
    | some src =>
      let s2 := copyWithin s1 dst src
      if 0 ≤ index ∧ index < (s2.len : Int) then
        .ok () ⟨s2.arr.set index.toNat v, s2.len⟩
      else .panic .indexOutOfRange s2

/-! ## Nested errors (misc.go) -/

mutual
/-- A value of the interface type `error`: the nil interface, an error of some
other dynamic type, or an error whose dynamic type is `*NestedError`, holding
a pointer (which may be the nil pointer). -/
inductive GoError where
  | nil
  | other (id : Nat)
  | nested (ptr : NestedErrorPtr)
/-- A value of type `*NestedError`: the nil pointer, or a pointer to a struct
with the fields `Message` and `Nested`. -/
inductive NestedErrorPtr where
  | nil
  | ref (Message : String) (Nested : GoError)
end

/-- Result of a call that returns an `error`: the returned value, or the
run-time panic of a nil pointer dereference. -/
inductive ErrorResult where
  | returns (err : GoError)
  | nilDereference

/-- Method `(*NestedError).Deepest`: each turn of the loop reads `err.Nested`
(a panic when `err` is the nil pointer), returns nil when it is the nil
interface, returns it when it is not a `*NestedError`, and otherwise goes on
with `err = ne`. -/
def NestedError.Deepest : NestedErrorPtr → ErrorResult
  | .nil => .nilDereference
  | .ref _ .nil => .returns .nil
  | .ref _ (.other id) => .returns (.other id)
  | .ref _ (.nested ne) => NestedError.Deepest ne

/-- Function `DeepestNested`: `ne, ok := err.(*NestedError); if ok { err = ne.Deepest() }`. -/
def DeepestNested (err : GoError) : ErrorResult :=
  match err with
  | .nested ne => NestedError.Deepest ne
  | e => .returns e

/-- Whether the dynamic type of an error is `*NestedError`. -/
def GoError.isNested : GoError → Bool
  | .nested _ => true
  | _ => false

/-- One link of a chain: `b` is the `Nested` field of the struct that the
`*NestedError` `a` points to. -/
inductive NestedLink : GoError → GoError → Prop where
  | field (m : String) (n : GoError) : NestedLink (.nested (.ref m n)) n

/-- Reachability by following `Nested` fields, zero or more times. -/
def Reaches (a b : GoError) : Prop := Relation.ReflTransGen NestedLink a b

mutual
/-- Whether the chain of `*NestedError` links that starts at an error comes to
a nil `*NestedError` pointer. -/
def GoError.hasNilLink : GoError → Bool
  | .nested p => p.hasNilLink
  | _ => false
/-- Whether a `*NestedError` is the nil pointer or its chain comes to one. -/
def NestedErrorPtr.hasNilLink : NestedErrorPtr → Bool
  | .nil => true
  | .ref _ n => n.hasNilLink
end

/-! ## Backing-array lemmas -/

theorem getElem?_window (arr : List α) (off n m : Nat) :
    (window arr off n)[m]? = if m < n then arr[off + m]? else none := by
  simp [window, List.getElem?_take, List.getElem?_drop]

theorem length_window (arr : List α) (off n : Nat) (h : off + n ≤ arr.length) :
    (window arr off n).length = n := by
  simp [window]; omega

theorem length_store (arr : List α) (off : Nat) (vals : List α)
    (h : off + vals.length ≤ arr.length) : (store arr off vals).length = arr.length := by
  simp [store]; omega

theorem getElem?_store (arr : List α) (off : Nat) (vals : List α) (m : Nat)
    (h : off + vals.length ≤ arr.length) :
    (store arr off vals)[m]? =
      if m < off then arr[m]? else if m < off + vals.length then vals[m - off]? else arr[m]? := by
  unfold store
  by_cases h1 : m < off
  · rw [List.append_assoc, List.getElem?_append_left (by simp; omega)]
    simp [List.getElem?_take, h1]
  · by_cases h2 : m < off + vals.length
    · rw [List.getElem?_append_left (by simp; omega),
        List.getElem?_append_right (by simp; omega)]
      simp [h1, h2]
      congr 1; omega
    · rw [List.getElem?_append_right (by simp; omega)]
      simp [h1, h2, List.getElem?_drop]
      congr 1; omega

theorem getElem?_elems (s : FloatSlice α) (m : Nat) :
    s.elems[m]? = if m < s.len then s.arr[m]? else none := by
  simp [FloatSlice.elems, List.getElem?_take]

theorem length_elems (s : FloatSlice α) (h : s.WF) : s.elems.length = s.len := by
  simp [FloatSlice.elems, FloatSlice.WF, FloatSlice.cap] at *; omega

/-! ## Insert -/

theorem sliceFrom_eq_some (s : FloatSlice α) (n : Nat) (h : n ≤ s.len) (hwf : s.WF) :
    sliceFrom s (n : Int) = some ⟨n, s.len - n⟩ := by
  unfold FloatSlice.WF FloatSlice.cap at hwf
  unfold sliceFrom slice FloatSlice.cap
  rw [if_pos (by omega)]
  congr 2
  omega

theorem sliceFrom_eq_none (s : FloatSlice α) (lo : Int) (h : lo < 0 ∨ (s.len : Int) < lo) :
    sliceFrom s lo = none := by
  unfold sliceFrom slice
  rw [if_neg (by omega)]

/-- The slice expression `(*s)[index+len(e):]` gives the same result on the
wrapped 64-bit sum as on the exact sum. -/
theorem sliceFrom_wrapInt (s : FloatSlice α) (index : Int) (k : Nat)
    (hlo : -2 ^ 63 ≤ index) (hhi : index < 2 ^ 63) (hk : (k : Int) < 2 ^ 63)
    (hlen : (s.len : Int) < 2 ^ 63) :
    sliceFrom s (wrapInt (index + (k : Int))) = sliceFrom s (index + (k : Int)) := by
  by_cases c : index + (k : Int) < 2 ^ 63
  · have : wrapInt (index + (k : Int)) = index + (k : Int) := by
      unfold wrapInt; omega
    rw [this]
  · have h1 : wrapInt (index + (k : Int)) < 0 := by
      unfold wrapInt; omega
    rw [sliceFrom_eq_none s _ (Or.inl h1), sliceFrom_eq_none s _ (Or.inr (by omega))]

theorem insertCopy_ok (s1 : FloatSlice α) (n : Nat) (e : List α) (L : Nat)
    (hlen : s1.len = L + e.length) (hwf : s1.WF) (hn : n ≤ L) :
    ∃ s2, insertCopy s1 (n : Int) e = .ok () s2 ∧ s2.len = s1.len ∧
      s2.arr.length = s1.arr.length ∧
      ∀ m, s2.arr[m]? =
        if m < n then s1.arr[m]?
        else if m < n + e.length then e[m - n]?
        else if m < L + e.length then s1.arr[m - e.length]? else s1.arr[m]? := by
  have hcap : s1.len ≤ s1.arr.length := hwf
  have h1 : sliceFrom s1 ((n : Int) + (e.length : Int)) = some ⟨n + e.length, L - n⟩ := by
    have := sliceFrom_eq_some s1 (n + e.length) (by omega) hwf
    rw [show ((n + e.length : Nat) : Int) = (n : Int) + (e.length : Int) by push_cast; rfl] at this
    rw [this]; congr 2; omega
  have h2 : sliceFrom s1 (n : Int) = some ⟨n, L + e.length - n⟩ := by
    rw [sliceFrom_eq_some s1 n (by omega) hwf, hlen]
  have hw : (window s1.arr n (L - n)).length = L - n := length_window _ _ _ (by omega)
  have hl2 : (copyWithin s1 ⟨n + e.length, L - n⟩ ⟨n, L + e.length - n⟩).arr.length
      = s1.arr.length := by
    simp only [copyWithin, show min (L - n) (L + e.length - n) = L - n by omega]
    exact length_store _ _ _ (by rw [hw]; omega)
  have h3 : sliceFrom (copyWithin s1 ⟨n + e.length, L - n⟩ ⟨n, L + e.length - n⟩) (n : Int)
      = some ⟨n, L + e.length - n⟩ := by
    rw [sliceFrom_eq_some _ n (by simp [copyWithin]; omega)
      (by simp only [FloatSlice.WF, FloatSlice.cap, hl2]; simpa [copyWithin] using hcap)]
    simp [copyWithin, hlen]
  refine ⟨copyFrom (copyWithin s1 ⟨n + e.length, L - n⟩ ⟨n, L + e.length - n⟩)
    ⟨n, L + e.length - n⟩ e, by simp only [insertCopy, h1, h2, h3], ?_, ?_, ?_⟩
  · simp [copyFrom, copyWithin]
  · simp only [copyFrom, show min (L + e.length - n) e.length = e.length by omega,
      List.take_length]
    rw [length_store _ _ _ (by rw [hl2]; omega), hl2]
  · intro m
    simp only [copyFrom, show min (L + e.length - n) e.length = e.length by omega,
      List.take_length]
    rw [getElem?_store _ _ _ _ (by rw [hl2]; omega)]
    simp only [copyWithin, show min (L - n) (L + e.length - n) = L - n by omega]
    rw [getElem?_store _ _ _ _ (by rw [hw]; omega), hw, getElem?_window]
    by_cases c1 : m < n
    · simp [c1, show m < n + e.length by omega]
    · by_cases c2 : m < n + e.length
      · simp [c1, c2]
      · by_cases c3 : m < L + e.length
        · simp only [c1, c2, c3, if_false, if_true,
            show m < n + e.length + (L - n) by omega, show m - (n + e.length) < L - n by omega]
          congr 1; omega
        · simp only [c1, c2, c3, if_false, show ¬ m < n + e.length + (L - n) by omega]

theorem getElem?_spliced (l e : List α) (n m : Nat) (hn : n ≤ l.length) :
    (l.take n ++ e ++ l.drop n)[m]? =
      if m < n then l[m]?
      else if m < n + e.length then e[m - n]? else l[m - e.length]? := by
  by_cases c1 : m < n
  · rw [List.append_assoc, List.getElem?_append_left (by simp; omega)]
    simp [List.getElem?_take, c1]
  · by_cases c2 : m < n + e.length
    · rw [List.getElem?_append_left (by simp; omega),
        List.getElem?_append_right (by simp; omega)]
      simp [c1, c2]
      congr 1; omega
    · rw [List.getElem?_append_right (by simp; omega)]
      simp [c1, c2, List.getElem?_drop]
      congr 1; omega

/-- The slice that `Insert` hands to its two `copy` calls: lengthened by
`len(e)`, well-formed, and with the old elements still in the first `len(s)` cells. -/
theorem Insert_lengthen [Inhabited α] (g : Nat → Nat → Nat) (s : FloatSlice α) (e : List α)
    (hwf : s.WF) :
    ∃ s1, (∀ index, s.Insert g index e = insertCopy s1 index e) ∧
      s1.len = s.len + e.length ∧ s1.WF ∧ ∀ m, m < s.len → s1.arr[m]? = s.arr[m]? := by
  have hcap : s.len ≤ s.arr.length := hwf
  by_cases hc : s.cap ≥ s.len + e.length
  · have hs : sliceTo s ((s.len + e.length : Nat) : Int) = some ⟨0, s.len + e.length⟩ := by
      unfold sliceTo slice
      rw [if_pos (by omega)]
      congr 2
    refine ⟨sub s ⟨0, s.len + e.length⟩, ?_, rfl, ?_, ?_⟩
    · intro index
      simp only [FloatSlice.Insert, if_pos hc, hs]
    · simpa [FloatSlice.WF, FloatSlice.cap, sub] using hc
    · intro m _
      simp [sub]
  · refine ⟨goAppend g s e, ?_, ?_, ?_, ?_⟩
    · intro index
      simp only [FloatSlice.Insert, if_neg hc]
    · simp only [goAppend]; split <;> rfl
    · have hc2 : ¬ s.len + e.length ≤ s.cap := hc
      rw [goAppend, if_neg hc2]
      simp only [FloatSlice.WF, FloatSlice.cap, List.length_append,
        List.length_take, List.length_replicate]
      omega
    · intro m hm
      have hc2 : ¬ s.len + e.length ≤ s.cap := hc
      simp only [goAppend, if_neg hc2]
      rw [List.append_assoc, List.getElem?_append_left (by simp; omega)]
      simp [List.getElem?_take, hm]

theorem Insert_ok [Inhabited α] (g : Nat → Nat → Nat) (s : FloatSlice α) (n : Nat)
    (e : List α) (hwf : s.WF) (hn : n ≤ s.len) :
    ∃ s2, s.Insert g (n : Int) e = .ok () s2 ∧ s2.WF ∧ s2.len = s.len + e.length ∧
      s2.elems = s.elems.take n ++ e ++ s.elems.drop n := by
  obtain ⟨s1, hI, hlen, hwf1, harr⟩ := Insert_lengthen g s e hwf
  obtain ⟨s2, hok, hl2, hal2, hget⟩ := insertCopy_ok s1 n e s.len hlen hwf1 hn
  refine ⟨s2, by rw [hI, hok], ?_, by rw [hl2, hlen], ?_⟩
  · have : s1.len ≤ s1.arr.length := hwf1
    simp only [FloatSlice.WF, FloatSlice.cap, hl2, hal2]
    exact this
  · apply List.ext_getElem?
    intro m
    rw [getElem?_elems, hget, hl2, hlen,
      getElem?_spliced _ _ _ _ (by rw [length_elems s hwf]; exact hn)]
    simp only [getElem?_elems]
    by_cases c1 : m < n
    · simp [c1, show m < s.len + e.length by omega, show m < s.len by omega, harr m (by omega)]
    · by_cases c2 : m < n + e.length
      · simp [c1, c2, show m < s.len + e.length by omega]
      · by_cases c3 : m < s.len + e.length
        · simp [c1, c2, c3, show m - e.length < s.len by omega, harr (m - e.length) (by omega)]
        · simp [c1, c2, c3, show ¬ m - e.length < s.len by omega]

/-! ## Remove and RemoveRange -/

/-- The `append((*s)[0:a], (*s)[b:]...)` shared by `Remove` and `RemoveRange`,
for `a <= b <= len(s)`: both slice expressions are in range and the append
happens in place. -/
theorem removeCore [Inhabited α] (g : Nat → Nat → Nat) (s : FloatSlice α) (a b : Nat)
    (hwf : s.WF) (hab : a ≤ b) (hb : b ≤ s.len) :
    slice s 0 (a : Int) = some ⟨0, a⟩ ∧ sliceFrom s (b : Int) = some ⟨b, s.len - b⟩ ∧
      (goAppend g (sub s ⟨0, a⟩) (window s.arr b (s.len - b))).WF ∧
      (goAppend g (sub s ⟨0, a⟩) (window s.arr b (s.len - b))).len = s.len - (b - a) ∧
      (goAppend g (sub s ⟨0, a⟩) (window s.arr b (s.len - b))).elems
        = s.elems.take a ++ s.elems.drop b := by
  have hcap : s.len ≤ s.arr.length := hwf
  have hw : (window s.arr b (s.len - b)).length = s.len - b := length_window _ _ _ (by omega)
  have hfit : (sub s ⟨0, a⟩).len + (window s.arr b (s.len - b)).length ≤ (sub s ⟨0, a⟩).cap := by
    simp only [sub, FloatSlice.cap, hw, List.drop_zero]; omega
  refine ⟨?_, sliceFrom_eq_some s b hb hwf, ?_, ?_, ?_⟩
  · unfold slice FloatSlice.cap
    rw [if_pos (by omega)]
    congr 2
  · rw [goAppend, if_pos hfit]
    simp only [FloatSlice.WF, FloatSlice.cap, sub, List.drop_zero, hw]
    rw [length_store _ _ _ (by rw [hw]; omega)]
    omega
  · rw [goAppend, if_pos hfit]
    simp only [sub, hw]
    omega
  · rw [goAppend, if_pos hfit]
    apply List.ext_getElem?
    intro m
    rw [getElem?_elems]
    simp only [sub, List.drop_zero, hw]
    rw [getElem?_store _ _ _ _ (by rw [hw]; omega), hw, getElem?_window,
      List.getElem?_append, List.getElem?_drop]
    simp only [List.getElem?_take, getElem?_elems, List.length_take, length_elems s hwf,
      show min a s.len = a by omega]
    by_cases c1 : m < a
    · simp [c1, show m < a + (s.len - b) by omega, show m < s.len by omega]
    · by_cases c2 : m < a + (s.len - b)
      · simp only [c1, c2, if_true, if_false, show m - a < s.len - b by omega,
          show b + (m - a) < s.len by omega]
      · simp only [c1, c2, if_false, show ¬ b + (m - a) < s.len by omega]

theorem RemoveRange_ok [Inhabited α] (g : Nat → Nat → Nat) (s : FloatSlice α) (a b : Nat)
    (hwf : s.WF) (hab : a ≤ b) (hb : b ≤ s.len) :
    ∃ s2, s.RemoveRange g (a : Int) (b : Int) = .ok () s2 ∧ s2.WF ∧
      s2.len = s.len - (b - a) ∧ s2.elems = s.elems.take a ++ s.elems.drop b := by
  obtain ⟨h1, h2, h3, h4, h5⟩ := removeCore g s a b hwf hab hb
  exact ⟨_, by simp only [FloatSlice.RemoveRange, h1, h2], h3, h4, h5⟩

theorem index_eq_some (s : FloatSlice α) (n : Nat) (hn : n < s.len) :
    index s (n : Int) = s.elems[n]? := by
  unfold index
  rw [if_pos (by omega), getElem?_elems, if_pos hn]
  rfl

theorem Remove_ok [Inhabited α] (g : Nat → Nat → Nat) (s : FloatSlice α) (n : Nat)
    (hwf : s.WF) (hn : n < s.len) :
    ∃ v s2, s.Remove g (n : Int) = .ok v s2 ∧ s.elems[n]? = some v ∧ s2.WF ∧
      s2.len = s.len - 1 ∧ s2.elems = s.elems.take n ++ s.elems.drop (n + 1) := by
  obtain ⟨h1, h2, h3, h4, h5⟩ := removeCore g s n (n + 1) hwf (by omega) (by omega)
  have hlt : n < s.elems.length := by rw [length_elems s hwf]; exact hn
  have hi : index s (n : Int) = some (s.elems[n]) := by
    rw [index_eq_some s n hn, List.getElem?_eq_getElem hlt]
  have h2b : sliceFrom s ((n : Int) + 1) = some ⟨n + 1, s.len - (n + 1)⟩ := by
    rw [← h2]; rfl
  refine ⟨s.elems[n], _, by simp only [FloatSlice.Remove, hi, h1, h2b],
    List.getElem?_eq_getElem hlt, h3, ?_, h5⟩
  rw [h4]; omega

/-! ## Claims on Insert, Remove and RemoveRange -/

/-- Insert with arguments passed by value, or in a slice whose storage is disjoint
from the receiver's backing array: for a well-formed slice `s` and every `index`
with `0 <= index <= len(s)`, `s.Insert(index, e...)` returns normally, the slice
afterwards is old `s[0:index]` followed by `e` followed by old `s[index:]`, and
`s[index+j]` holds `e[j]` for every `j < len(e)`; this holds whether the spare
capacity suffices or `append` has to reallocate. -/
theorem Insert_spec [Inhabited α] (g : Nat → Nat → Nat) (s : FloatSlice α) (index : Int)
    (e : List α) (hwf : s.WF) (h0 : 0 ≤ index) (h1 : index ≤ (s.len : Int)) :
    ∃ s2, s.Insert g index e = .ok () s2 ∧ s2.len = s.len + e.length ∧
      s2.elems = s.elems.take index.toNat ++ e ++ s.elems.drop index.toNat ∧
      ∀ j, j < e.length → s2.elems[index.toNat + j]? = e[j]? := by
  obtain ⟨n, rfl⟩ := Int.eq_ofNat_of_zero_le h0
  obtain ⟨s2, hok, _, hlen, hel⟩ := Insert_ok g s n e hwf (by omega)
  refine ⟨s2, hok, hlen, by simpa using hel, ?_⟩
  intro j hj
  rw [hel, getElem?_spliced _ _ _ _ (by rw [length_elems s hwf]; omega)]
  simp [hj]

theorem Insert_spec_witness :
    (⟨[1, 2, 3], 3⟩ : FloatSlice Int).WF ∧ (0 : Int) ≤ 1 ∧ (1 : Int) ≤ ((3 : Nat) : Int) ∧
    ∃ s2, (⟨[1, 2, 3], 3⟩ : FloatSlice Int).Insert (fun c _ => 2 * c) 1 [7, 8] = .ok () s2 ∧
      s2.len = 3 + 2 ∧
      s2.elems = [1, 2, 3].take 1 ++ [7, 8] ++ [1, 2, 3].drop 1 ∧
      ∀ j, j < 2 → s2.elems[1 + j]? = [7, 8][j]? :=
  ⟨by decide, by decide, by decide,
    Insert_spec (fun c _ => 2 * c) (⟨[1, 2, 3], 3⟩ : FloatSlice Int) 1 [7, 8]
      (by decide) (by decide) (by decide)⟩

/-! ## Insert with arguments that share storage with the receiver -/

theorem readArgs_outside [Inhabited α] (arr : List α) (e : List α) :
    readArgs arr (e.map ArgCell.outside) = e := by
  simp [readArgs, List.map_map, Function.comp_def, ArgCell.read]

theorem length_readArgs [Inhabited α] (arr : List α) (e : List (ArgCell α)) :
    (readArgs arr e).length = e.length := by
  simp [readArgs]

/-- With arguments passed by value the general model is the model with value lists. -/
theorem InsertShared_outside [Inhabited α] (g : Nat → Nat → Nat) (s : FloatSlice α)
    (index : Int) (e : List α) :
    s.InsertShared g index (e.map ArgCell.outside) = s.Insert g index e := by
  simp only [FloatSlice.InsertShared, FloatSlice.Insert, insertCopyShared, insertCopy,
    readArgs_outside, List.length_map]

theorem insertCopyShared_eq [Inhabited α] (s1 : FloatSlice α) (n : Nat) (e : List (ArgCell α))
    (L : Nat) (hlen : s1.len = L + e.length) (hwf : s1.WF) (hn : n ≤ L) :
    insertCopyShared s1 (n : Int) e =
      insertCopy s1 (n : Int)
        (readArgs (store s1.arr (n + e.length) (window s1.arr n (L - n))) e) := by
  have h1 : sliceFrom s1 ((n : Int) + (e.length : Int)) = some ⟨n + e.length, L - n⟩ := by
    have := sliceFrom_eq_some s1 (n + e.length) (by omega) hwf
    rw [show ((n + e.length : Nat) : Int) = (n : Int) + (e.length : Int) by push_cast; rfl] at this
    rw [this]; congr 2; omega
  have h2 : sliceFrom s1 (n : Int) = some ⟨n, L + e.length - n⟩ := by
    rw [sliceFrom_eq_some s1 n (by omega) hwf, hlen]
  simp only [insertCopyShared, insertCopy, length_readArgs, h1, h2, copyWithin,
    show min (L - n) (L + e.length - n) = L - n by omega]

/-- In range, `Insert` with shared arguments does what `Insert` does with the
values that its second `copy` reads. -/
theorem InsertShared_eq_Insert [Inhabited α] (g : Nat → Nat → Nat) (s : FloatSlice α) (n : Nat)
    (e : List (ArgCell α)) (hwf : s.WF) (hn : n ≤ s.len) :
    s.InsertShared g (n : Int) e = s.Insert g (n : Int) (argValues s n e) := by
  have hcap : s.len ≤ s.arr.length := hwf
  by_cases hc : s.cap ≥ s.len + e.length
  · have hs : sliceTo s ((s.len + e.length : Nat) : Int) = some ⟨0, s.len + e.length⟩ := by
      unfold sliceTo slice
      rw [if_pos (by omega)]
      congr 2
    have hE : (argValues s n e).length = e.length := by
      simp only [argValues, if_pos hc, length_readArgs]
    have hc2 : s.cap ≥ s.len + (argValues s n e).length := by rw [hE]; exact hc
    simp only [FloatSlice.InsertShared, FloatSlice.Insert, if_pos hc, if_pos hc2, hE, hs]
    rw [insertCopyShared_eq (sub s ⟨0, s.len + e.length⟩) n e s.len rfl
      (by simpa [FloatSlice.WF, FloatSlice.cap, sub] using hc) hn]
    simp only [argValues, if_pos hc, sub, List.drop_zero]
  · have hE : (argValues s n e).length = e.length := by
      simp only [argValues, if_neg hc, length_readArgs]
    have hc2 : ¬ s.cap ≥ s.len + (argValues s n e).length := by rw [hE]; exact hc
    simp only [FloatSlice.InsertShared, FloatSlice.Insert, if_neg hc, if_neg hc2]
    simp only [argValues, if_neg hc]

/-- The cells of the backing array after the tail shift of an in-place `Insert`:
the cells `n + k .. len + k - 1` hold the old tail, the others are unchanged. -/
theorem getElem?_shifted (arr : List α) (n k len j : Nat) (hn : n ≤ len)
    (hcap : len + k ≤ arr.length) :
    (store arr (n + k) (window arr n (len - n)))[j]? =
      if n + k ≤ j ∧ j < len + k then arr[j - k]? else arr[j]? := by
  have hw : (window arr n (len - n)).length = len - n := length_window _ _ _ (by omega)
  rw [getElem?_store _ _ _ _ (by rw [hw]; omega), hw, getElem?_window]
  by_cases c1 : j < n + k
  · simp [c1, show ¬ (n + k ≤ j ∧ j < len + k) by omega]
  · by_cases c2 : j < len + k
    · simp only [c1, if_false, show j < n + k + (len - n) by omega, if_true,
        show j - (n + k) < len - n by omega, show n + k ≤ j ∧ j < len + k by omega]
      congr 1; omega
    · simp [c1, show ¬ j < n + k + (len - n) by omega,
        show ¬ (n + k ≤ j ∧ j < len + k) by omega]

/-- When the call reallocates, or no cell of `e` is one of the cells the tail
shift writes, the second `copy` reads the values `e` held at the call. -/
theorem argValues_eq [Inhabited α] (s : FloatSlice α) (n : Nat) (e : List (ArgCell α))
    (hn : n ≤ s.len)
    (h : ¬ s.cap ≥ s.len + e.length ∨
      ∀ j, ArgCell.shared j ∈ e → j < n + e.length ∨ s.len + e.length ≤ j) :
    argValues s n e = readArgs s.arr e := by
  by_cases hc : s.cap ≥ s.len + e.length
  · have h2 := h.resolve_left (not_not.2 hc)
    simp only [argValues, if_pos hc, readArgs]
    apply List.map_congr_left
    intro c hcm
    cases c with
    | outside v => rfl
    | shared j =>
      simp only [ArgCell.read]
      rw [getElem?_shifted s.arr n e.length s.len j hn hc,
        if_neg (by have := h2 j hcm; omega)]
  · simp only [argValues, if_neg hc]

/-- For a well-formed slice and `0 <= index <= len(s)`, `Insert` with arguments
that may share cells with the receiver returns normally and leaves old
`s[0:index]`, then the elements of `e` as the second `copy` read them, then old
`s[index:]`; these are the elements `e` held at the call whenever the call
reallocates or no cell of `e` is among the cells `index+len(e) .. len(s)+len(e)-1`
that the tail shift writes. -/
theorem InsertShared_spec [Inhabited α] (g : Nat → Nat → Nat) (s : FloatSlice α) (index : Int)
    (e : List (ArgCell α)) (hwf : s.WF) (h0 : 0 ≤ index) (h1 : index ≤ (s.len : Int)) :
    ∃ s2, s.InsertShared g index e = .ok () s2 ∧ s2.len = s.len + e.length ∧
      s2.elems = s.elems.take index.toNat ++ argValues s index.toNat e
        ++ s.elems.drop index.toNat ∧
      ((¬ s.cap ≥ s.len + e.length ∨
          ∀ j, ArgCell.shared j ∈ e → j < index.toNat + e.length ∨ s.len + e.length ≤ j) →
        s2.elems = s.elems.take index.toNat ++ readArgs s.arr e ++ s.elems.drop index.toNat) := by
  obtain ⟨n, rfl⟩ := Int.eq_ofNat_of_zero_le h0
  have hn : n ≤ s.len := by omega
  obtain ⟨s2, hok, _, hlen, hel⟩ := Insert_ok g s n (argValues s n e) hwf hn
  have hE : (argValues s n e).length = e.length := by
    unfold argValues; split <;> exact length_readArgs _ _
  refine ⟨s2, by rw [InsertShared_eq_Insert g s n e hwf hn, hok], by rw [hlen, hE],
    by simpa using hel, ?_⟩
  intro h
  rw [hel, argValues_eq s n e hn (by simpa using h)]
  simp

theorem InsertShared_spec_witness :
    (⟨[1, 2, 3, 0, 0], 3⟩ : FloatSlice Int).WF ∧ (0 : Int) ≤ 2 ∧ (2 : Int) ≤ ((3 : Nat) : Int) ∧
    ∃ s2, (⟨[1, 2, 3, 0, 0], 3⟩ : FloatSlice Int).InsertShared (fun c _ => 2 * c) 2
        [.shared 0, .shared 1] = .ok () s2 ∧ s2.len = 3 + 2 ∧
      s2.elems = [1, 2, 3].take 2 ++ [1, 2] ++ [1, 2, 3].drop 2 :=
  ⟨by decide, by decide, by decide, by
    obtain ⟨s2, hok, hlen, _, hel⟩ :=
      InsertShared_spec (fun c _ => 2 * c) (⟨[1, 2, 3, 0, 0], 3⟩ : FloatSlice Int) 2
        [.shared 0, .shared 1] (by decide) (by decide) (by decide)
    refine ⟨s2, hok, hlen, hel (Or.inr ?_)⟩
    intro j hj
    simp only [List.mem_cons, ArgCell.shared.injEq, List.mem_singleton, List.not_mem_nil,
      or_false] at hj
    rcases hj with rfl | rfl <;> decide⟩

/-- C1, at a failing input: `s` has the backing array `[1 2 3 0 0]` and length 3,
and the call is `s.Insert(0, s[1:3]...)`, so `e` holds `[2 3]` at the call and
shares the cells 1 and 2 of `s`.  The slice is lengthened in place, the tail
shift leaves `[1 2 1 2 3]`, `e` now reads `[2 1]`, and the call leaves
`[2 1 1 2 3]`, not old `s[0:0]`, `e`, old `s[0:]`, which is `[2 3 1 2 3]`.  The
same call on a slice without spare capacity reallocates and leaves `[2 3 1 2 3]`. -/
theorem Insert_shared_in_place :
    (⟨[1, 2, 3, 0, 0], 3⟩ : FloatSlice Int).WF ∧
    readArgs [1, 2, 3, 0, 0] ([.shared 1, .shared 2] : List (ArgCell Int)) = [2, 3] ∧
    (⟨[1, 2, 3, 0, 0], 3⟩ : FloatSlice Int).InsertShared (fun c _ => 2 * c) 0
        [.shared 1, .shared 2] = .ok () ⟨[2, 1, 1, 2, 3], 5⟩ ∧
    (⟨[2, 1, 1, 2, 3], 5⟩ : FloatSlice Int).elems ≠
      (⟨[1, 2, 3, 0, 0], 3⟩ : FloatSlice Int).elems.take 0 ++ [2, 3]
        ++ (⟨[1, 2, 3, 0, 0], 3⟩ : FloatSlice Int).elems.drop 0 ∧
    (⟨[2, 1, 1, 2, 3], 5⟩ : FloatSlice Int).elems[0 + 1]? ≠ ([2, 3] : List Int)[1]? ∧
    (⟨[1, 2, 3], 3⟩ : FloatSlice Int).InsertShared (fun c _ => 2 * c) 0
        [.shared 1, .shared 2] = .ok () ⟨[2, 3, 1, 2, 3, 0], 5⟩ := by
  decide

/-! ## Remove, RemoveRange and the inverse of Insert: claims -/

/-- C2: for a well-formed slice `s` and `0 <= index < len(s)`, `s.Remove(index)`
returns the element that was at `index`, and afterwards `s` is old `s[0:index]`
followed by old `s[index+1:]`, of length `len(s) - 1`. -/
theorem Remove_spec [Inhabited α] (g : Nat → Nat → Nat) (s : FloatSlice α) (index : Int)
    (hwf : s.WF) (h0 : 0 ≤ index) (h1 : index < (s.len : Int)) :
    ∃ v s2, s.Remove g index = .ok v s2 ∧ s.elems[index.toNat]? = some v ∧
      s2.len = s.len - 1 ∧
      s2.elems = s.elems.take index.toNat ++ s.elems.drop (index.toNat + 1) := by
  obtain ⟨n, rfl⟩ := Int.eq_ofNat_of_zero_le h0
  obtain ⟨v, s2, hok, hv, _, hlen, hel⟩ := Remove_ok g s n hwf (by omega)
  exact ⟨v, s2, hok, by simpa using hv, hlen, by simpa using hel⟩

theorem Remove_spec_witness :
    (⟨[1, 2, 6, 7, 5, 6, 7], 4⟩ : FloatSlice Int).WF ∧ (0 : Int) ≤ 2 ∧
    (2 : Int) < ((4 : Nat) : Int) ∧
    ∃ v s2, (⟨[1, 2, 6, 7, 5, 6, 7], 4⟩ : FloatSlice Int).Remove (fun c _ => 2 * c) 2
        = .ok v s2 ∧
      (⟨[1, 2, 6, 7, 5, 6, 7], 4⟩ : FloatSlice Int).elems[(2 : Int).toNat]? = some v ∧
      s2.len = 4 - 1 ∧
      s2.elems = (⟨[1, 2, 6, 7, 5, 6, 7], 4⟩ : FloatSlice Int).elems.take (2 : Int).toNat
        ++ (⟨[1, 2, 6, 7, 5, 6, 7], 4⟩ : FloatSlice Int).elems.drop ((2 : Int).toNat + 1) :=
  ⟨by decide, by decide, by decide,
    Remove_spec (fun c _ => 2 * c) (⟨[1, 2, 6, 7, 5, 6, 7], 4⟩ : FloatSlice Int) 2
      (by decide) (by decide) (by decide)⟩

/-- C3: for a well-formed slice `s` and `0 <= from <= to <= len(s)`,
`s.RemoveRange(from, to)` returns normally and leaves old `s[0:from]` followed
by old `s[to:]`: exactly `to - from` elements are removed. -/
theorem RemoveRange_spec [Inhabited α] (g : Nat → Nat → Nat) (s : FloatSlice α)
    (frm til : Int) (hwf : s.WF) (h0 : 0 ≤ frm) (h1 : frm ≤ til) (h2 : til ≤ (s.len : Int)) :
    ∃ s2, s.RemoveRange g frm til = .ok () s2 ∧
      (s2.len : Int) = (s.len : Int) - (til - frm) ∧
      s2.elems = s.elems.take frm.toNat ++ s.elems.drop til.toNat := by
  obtain ⟨a, rfl⟩ := Int.eq_ofNat_of_zero_le h0
  obtain ⟨b, rfl⟩ := Int.eq_ofNat_of_zero_le (le_trans h0 h1)
  obtain ⟨s2, hok, _, hlen, hel⟩ := RemoveRange_ok g s a b hwf (by omega) (by omega)
  exact ⟨s2, hok, by omega, by simpa using hel⟩

theorem RemoveRange_spec_witness :
    (⟨[1, 2, 3, 4, 5, 6, 7, 0], 7⟩ : FloatSlice Int).WF ∧ (0 : Int) ≤ 2 ∧ (2 : Int) ≤ 5 ∧
    (5 : Int) ≤ ((7 : Nat) : Int) ∧
    ∃ s2, (⟨[1, 2, 3, 4, 5, 6, 7, 0], 7⟩ : FloatSlice Int).RemoveRange (fun c _ => 2 * c) 2 5
        = .ok () s2 ∧
      (s2.len : Int) = ((7 : Nat) : Int) - (5 - 2) ∧
      s2.elems = (⟨[1, 2, 3, 4, 5, 6, 7, 0], 7⟩ : FloatSlice Int).elems.take (2 : Int).toNat
        ++ (⟨[1, 2, 3, 4, 5, 6, 7, 0], 7⟩ : FloatSlice Int).elems.drop (5 : Int).toNat :=
  ⟨by decide, by decide, by decide, by decide,
    RemoveRange_spec (fun c _ => 2 * c) (⟨[1, 2, 3, 4, 5, 6, 7, 0], 7⟩ : FloatSlice Int) 2 5
      (by decide) (by decide) (by decide) (by decide)⟩

/-- C4: for a well-formed slice `s`, `0 <= i <= len(s)` and a value `v`,
`s.Insert(i, v)` followed by `s.Remove(i)` returns `v` and leaves the length and
the elements of `s` as they were before the `Insert`, in place or after growth. -/
theorem Insert_Remove_inverse [Inhabited α] (g : Nat → Nat → Nat) (s : FloatSlice α)
    (i : Int) (v : α) (hwf : s.WF) (h0 : 0 ≤ i) (h1 : i ≤ (s.len : Int)) :
    ∃ s1 s2, s.Insert g i [v] = .ok () s1 ∧ s1.Remove g i = .ok v s2 ∧
      s2.len = s.len ∧ s2.elems = s.elems := by
  obtain ⟨n, rfl⟩ := Int.eq_ofNat_of_zero_le h0
  have hn : n ≤ s.len := by omega
  have hnl : n ≤ s.elems.length := by rw [length_elems s hwf]; exact hn
  obtain ⟨s1, hok1, hwf1, hlen1, hel1⟩ := Insert_ok g s n [v] hwf hn
  obtain ⟨w, s2, hok2, hw, _, hlen2, hel2⟩ := Remove_ok g s1 n hwf1 (by rw [hlen1]; simp; omega)
  have hwv : w = v := by
    rw [hel1, getElem?_spliced _ _ _ _ hnl] at hw
    simpa using hw.symm
  subst hwv
  refine ⟨s1, s2, hok1, hok2, by rw [hlen2, hlen1]; simp, ?_⟩
  rw [hel2, hel1]
  have e1 : (List.take n s.elems ++ [w] ++ List.drop n s.elems).take n = List.take n s.elems := by
    rw [List.append_assoc, List.take_append_eq_append_take]
    simp [List.length_take, hnl]
  have e2 : (List.take n s.elems ++ [w] ++ List.drop n s.elems).drop (n + 1)
      = List.drop n s.elems := by
    rw [List.drop_append_eq_append_drop]
    simp [List.length_take, hnl]
  rw [e1, e2, List.take_append_drop]

theorem Insert_Remove_inverse_witness :
    (⟨[1, 2, 3], 3⟩ : FloatSlice Int).WF ∧ (0 : Int) ≤ 1 ∧ (1 : Int) ≤ ((3 : Nat) : Int) ∧
    ∃ s1 s2, (⟨[1, 2, 3], 3⟩ : FloatSlice Int).Insert (fun c _ => 2 * c) 1 [9] = .ok () s1 ∧
      s1.Remove (fun c _ => 2 * c) 1 = .ok 9 s2 ∧
      s2.len = 3 ∧ s2.elems = (⟨[1, 2, 3], 3⟩ : FloatSlice Int).elems :=
  ⟨by decide, by decide, by decide,
    Insert_Remove_inverse (fun c _ => 2 * c) (⟨[1, 2, 3], 3⟩ : FloatSlice Int) 1 9
      (by decide) (by decide) (by decide)⟩

/-! ## Add -/

theorem Add_ok [Inhabited α] (g : Nat → Nat → Nat) (s : FloatSlice α) (e : List α)
    (hwf : s.WF) :
    (s.Add g e).WF ∧ (s.Add g e).len = s.len + e.length ∧ (s.Add g e).elems = s.elems ++ e := by
  have hcap : s.len ≤ s.arr.length := hwf
  unfold FloatSlice.Add
  by_cases hc : s.len + e.length ≤ s.cap
  · rw [goAppend, if_pos hc]
    have hc2 : s.len + e.length ≤ s.arr.length := hc
    refine ⟨?_, rfl, ?_⟩
    · simp only [FloatSlice.WF, FloatSlice.cap]
      rw [length_store _ _ _ hc2]; exact hc2
    · simp only [FloatSlice.elems, store]
      rw [List.take_append_eq_append_take]
      simp [List.length_take, hcap]
  · rw [goAppend, if_neg hc]
    refine ⟨?_, rfl, ?_⟩
    · simp only [FloatSlice.WF, FloatSlice.cap, List.length_append, List.length_take,
        List.length_replicate]
      omega
    · simp only [FloatSlice.elems]
      rw [List.take_append_eq_append_take]
      simp [List.length_take, hcap]

/-- C6: for a well-formed slice `s` and every argument list `e`, `s.Add(e...)`
(a total function: it cannot panic) leaves exactly old `s` followed by `e`: the
old elements keep their positions and values, the new ones follow in argument
order, and the length is `len(s) + len(e)`. -/
theorem Add_spec [Inhabited α] (g : Nat → Nat → Nat) (s : FloatSlice α) (e : List α)
    (hwf : s.WF) :
    (s.Add g e).elems = s.elems ++ e ∧ (s.Add g e).len = s.len + e.length ∧
      (∀ m, m < s.len → (s.Add g e).elems[m]? = s.elems[m]?) ∧
      (∀ j, j < e.length → (s.Add g e).elems[s.len + j]? = e[j]?) := by
  obtain ⟨_, hlen, hel⟩ := Add_ok g s e hwf
  have hl := length_elems s hwf
  refine ⟨hel, hlen, ?_, ?_⟩
  · intro m hm
    rw [hel, List.getElem?_append_left (by omega)]
  · intro j _
    rw [hel, List.getElem?_append_right (by omega), hl]
    simp

theorem Add_spec_witness :
    (⟨[1, 2, 3], 2⟩ : FloatSlice Int).WF ∧
    (((⟨[1, 2, 3], 2⟩ : FloatSlice Int).Add (fun c _ => 2 * c) [7, 8]).elems
        = (⟨[1, 2, 3], 2⟩ : FloatSlice Int).elems ++ [7, 8] ∧
      ((⟨[1, 2, 3], 2⟩ : FloatSlice Int).Add (fun c _ => 2 * c) [7, 8]).len = 2 + 2 ∧
      (∀ m, m < 2 → ((⟨[1, 2, 3], 2⟩ : FloatSlice Int).Add (fun c _ => 2 * c) [7, 8]).elems[m]?
        = (⟨[1, 2, 3], 2⟩ : FloatSlice Int).elems[m]?) ∧
      (∀ j, j < 2 →
        ((⟨[1, 2, 3], 2⟩ : FloatSlice Int).Add (fun c _ => 2 * c) [7, 8]).elems[2 + j]?
          = [7, 8][j]?)) :=
  ⟨by decide, Add_spec (fun c _ => 2 * c) (⟨[1, 2, 3], 2⟩ : FloatSlice Int) [7, 8] (by decide)⟩

/-! ## Length after a sequence of calls -/

theorem Op.run_ok [Inhabited α] (g : Nat → Nat → Nat) (s : FloatSlice α) (op : Op α)
    (hwf : s.WF) (hb : op.inBounds s.len = true) :
    ∃ s1, op.run g s = .ok () s1 ∧ s1.WF ∧
      (s1.len : Int) = (s.len : Int) + op.inserted - op.removed := by
  cases op with
  | add e =>
    obtain ⟨h1, h2, _⟩ := Add_ok g s e hwf
    exact ⟨_, rfl, h1, by simp [Op.inserted, Op.removed, h2]⟩
  | insert i e =>
    simp only [Op.inBounds, decide_eq_true_eq] at hb
    obtain ⟨n, rfl⟩ := Int.eq_ofNat_of_zero_le hb.1
    obtain ⟨s1, hok, hwf1, hlen, _⟩ := Insert_ok g s n e hwf (by omega)
    exact ⟨s1, hok, hwf1, by simp [Op.inserted, Op.removed, hlen]⟩
  | remove i =>
    simp only [Op.inBounds, decide_eq_true_eq] at hb
    obtain ⟨n, rfl⟩ := Int.eq_ofNat_of_zero_le hb.1
    obtain ⟨v, s1, hok, _, hwf1, hlen, _⟩ := Remove_ok g s n hwf (by omega)
    refine ⟨s1, by simp only [Op.run, hok], hwf1, ?_⟩
    simp only [Op.inserted, Op.removed]
    omega
  | removeRange a b =>
    simp only [Op.inBounds, decide_eq_true_eq] at hb
    obtain ⟨a, rfl⟩ := Int.eq_ofNat_of_zero_le hb.1
    obtain ⟨b, rfl⟩ := Int.eq_ofNat_of_zero_le (le_trans hb.1 hb.2.1)
    obtain ⟨s1, hok, hwf1, hlen, _⟩ := RemoveRange_ok g s a b hwf (by omega) (by omega)
    refine ⟨s1, hok, hwf1, ?_⟩
    simp only [Op.inserted, Op.removed]
    omega

theorem runOps_ok [Inhabited α] (g : Nat → Nat → Nat) (ops : List (Op α)) :
    ∀ s : FloatSlice α, s.WF → allInBounds s.len ops = true →
      ∃ s2, runOps g s ops = .ok () s2 ∧ s2.WF ∧
        (s2.len : Int) = (s.len : Int) + totalInserted ops - totalRemoved ops := by
  induction ops with
  | nil =>
    intro s hwf _
    exact ⟨s, rfl, hwf, by simp [totalInserted, totalRemoved]⟩
  | cons op ops ih =>
    intro s hwf hb
    simp only [allInBounds, Bool.and_eq_true] at hb
    obtain ⟨s1, hok, hwf1, hlen⟩ := Op.run_ok g s op hwf hb.1
    have hb2 : allInBounds s1.len ops = true := by
      rw [← hlen] at hb
      simpa using hb.2
    obtain ⟨s2, hok2, hwf2, hlen2⟩ := ih s1 hwf1 hb2
    refine ⟨s2, by simp only [runOps, hok, hok2], hwf2, ?_⟩
    simp only [totalInserted, totalRemoved, List.map_cons, List.sum_cons] at *
    omega

/-- C5: for a well-formed slice and a finite sequence of `Add`, `Insert`,
`Remove` and `RemoveRange` calls whose arguments are each within bounds when the
call is made, every call returns normally and the final length is the initial
length plus the number of elements passed to `Add` and `Insert` minus the
number removed (1 per `Remove`, `to - from` per `RemoveRange`). -/
theorem runOps_length [Inhabited α] (g : Nat → Nat → Nat) (s : FloatSlice α)
    (ops : List (Op α)) (hwf : s.WF) (hb : allInBounds s.len ops = true) :
    ∃ s2, runOps g s ops = .ok () s2 ∧
      (s2.len : Int) = (s.len : Int) + totalInserted ops - totalRemoved ops := by
  obtain ⟨s2, hok, _, hlen⟩ := runOps_ok g ops s hwf hb
  exact ⟨s2, hok, hlen⟩

theorem runOps_length_witness :
    (FloatSlice.nil : FloatSlice Int).WF ∧
    allInBounds (FloatSlice.nil : FloatSlice Int).len
      [Op.add [1, 2, 3, 4, 5, 6, 7], Op.removeRange 2 5, Op.remove 2, Op.insert 0 [9]] = true ∧
    ∃ s2, runOps (fun c _ => 2 * c) (FloatSlice.nil : FloatSlice Int)
        [Op.add [1, 2, 3, 4, 5, 6, 7], Op.removeRange 2 5, Op.remove 2, Op.insert 0 [9]]
        = .ok () s2 ∧
      (s2.len : Int) = ((FloatSlice.nil : FloatSlice Int).len : Int)
        + totalInserted [Op.add [1, 2, 3, 4, 5, 6, 7], Op.removeRange 2 5, Op.remove 2,
            Op.insert 0 [(9 : Int)]]
        - totalRemoved [Op.add [1, 2, 3, 4, 5, 6, 7], Op.removeRange 2 5, Op.remove 2,
            Op.insert 0 [(9 : Int)]] :=
  ⟨by decide, by decide,
    runOps_length (fun c _ => 2 * c) (FloatSlice.nil : FloatSlice Int)
      [Op.add [1, 2, 3, 4, 5, 6, 7], Op.removeRange 2 5, Op.remove 2, Op.insert 0 [9]]
      (by decide) (by decide)⟩

/-! ## Swap -/

theorem getElem?_swapped (l : List α) (i j : Nat) (hi : i < l.length) (hj : j < l.length)
    (m : Nat) :
    ((l.set i l[j]).set j l[i])[m]? =
      if m = j then some l[i] else if m = i then some l[j] else l[m]? := by
  simp only [List.getElem?_set, List.length_set]
  by_cases c1 : j = m
  · subst c1; simp [hj]
  · by_cases c2 : i = m
    · subst c2; simp [c1, hi, Ne.symm c1]
    · simp [c1, c2, Ne.symm c1, Ne.symm c2]

theorem swapped_swapped (l : List α) (i j : Nat) (hi : i < l.length) (hj : j < l.length)
    (vi vj : α)
    (h1 : ((l.set i l[j]).set j l[i])[i]? = some vi)
    (h2 : ((l.set i l[j]).set j l[i])[j]? = some vj) :
    (((l.set i l[j]).set j l[i]).set i vj).set j vi = l := by
  rw [getElem?_swapped l i j hi hj] at h1 h2
  apply List.ext_getElem?
  intro m
  simp only [List.getElem?_set, List.length_set]
  by_cases c1 : j = m
  · subst c1
    by_cases c2 : i = j
    · subst c2; simp at h1; simp [hi, ← h1]
    · simp [c2] at h1
      simp [hj, ← h1]
  · by_cases c2 : i = m
    · subst c2
      simp at h2
      simp [c1, hi, ← h2]
    · simp [c1, c2]

theorem count_set_add [DecidableEq α] (a x : α) (l : List α) :
    ∀ (i : Nat) (hi : i < l.length),
      (l.set i x).count a + (if l[i] = a then 1 else 0) = l.count a + (if x = a then 1 else 0) := by
  induction l with
  | nil => intro i hi; simp at hi
  | cons b l ih =>
    intro i hi
    cases i with
    | zero =>
      simp only [List.set_cons_zero, List.count_cons, List.getElem_cons_zero, beq_iff_eq]
      omega
    | succ i =>
      have := ih i (by simpa using hi)
      simp only [List.set_cons_succ, List.count_cons, List.getElem_cons_succ, beq_iff_eq]
      omega

theorem swapped_perm (l : List α) (i j : Nat) (hi : i < l.length) (hj : j < l.length) :
    ((l.set i l[j]).set j l[i]).Perm l := by
  classical
  rw [List.perm_iff_count]
  intro a
  have h1 := count_set_add a l[j] l i hi
  have hj2 : j < (l.set i l[j]).length := by simpa using hj
  have h2 := count_set_add a l[i] (l.set i l[j]) j hj2
  have h3 : (l.set i l[j])[j] = l[j] := by
    rw [List.getElem_set]; split <;> rfl
  rw [h3] at h2
  omega

theorem Swap_ok (s : FloatSlice α) (a b : Nat) (hwf : s.WF) (ha : a < s.len) (hb : b < s.len) :
    ∃ (ha2 : a < s.arr.length) (hb2 : b < s.arr.length),
      s.Swap (a : Int) (b : Int) = .ok () ⟨(s.arr.set a s.arr[b]).set b s.arr[a], s.len⟩ := by
  have hcap : s.len ≤ s.arr.length := hwf
  have ha2 : a < s.arr.length := by omega
  have hb2 : b < s.arr.length := by omega
  refine ⟨ha2, hb2, ?_⟩
  have h1 : index s (b : Int) = some s.arr[b] := by
    unfold index
    rw [if_pos (by omega)]
    exact List.getElem?_eq_getElem hb2
  have h2 : index s (a : Int) = some s.arr[a] := by
    unfold index
    rw [if_pos (by omega)]
    exact List.getElem?_eq_getElem ha2
  simp only [FloatSlice.Swap, h1, h2, Int.toNat_ofNat]

/-- C8: for a well-formed slice `s` and valid indices `i`, `j`, `s.Swap(i, j)`
returns normally; afterwards position `i` holds the old `s[j]`, position `j`
the old `s[i]`, every other position and the length are unchanged, the
elements are a permutation of the old ones, and a second `Swap(i, j)` gives
back the original slice. -/
theorem Swap_spec (s : FloatSlice α) (i j : Int) (hwf : s.WF)
    (hi0 : 0 ≤ i) (hi : i < (s.len : Int)) (hj0 : 0 ≤ j) (hj : j < (s.len : Int)) :
    ∃ s2, s.Swap i j = .ok () s2 ∧ s2.len = s.len ∧
      s2.elems[i.toNat]? = s.elems[j.toNat]? ∧ s2.elems[j.toNat]? = s.elems[i.toNat]? ∧
      (∀ m, m ≠ i.toNat → m ≠ j.toNat → s2.elems[m]? = s.elems[m]?) ∧
      s2.elems.Perm s.elems ∧ s2.Swap i j = .ok () s := by
  obtain ⟨a, rfl⟩ := Int.eq_ofNat_of_zero_le hi0
  obtain ⟨b, rfl⟩ := Int.eq_ofNat_of_zero_le hj0
  have ha : a < s.len := by omega
  have hb : b < s.len := by omega
  obtain ⟨ha2, hb2, hok⟩ := Swap_ok s a b hwf ha hb
  have hget : ∀ m, (FloatSlice.elems ⟨(s.arr.set a s.arr[b]).set b s.arr[a], s.len⟩)[m]? =
      if m = b then s.elems[a]? else if m = a then s.elems[b]? else s.elems[m]? := by
    intro m
    simp only [getElem?_elems, getElem?_swapped s.arr a b ha2 hb2, ha, hb, if_true,
      List.getElem?_eq_getElem ha2, List.getElem?_eq_getElem hb2]
    by_cases c1 : m = b
    · subst c1; simp [hb]
    · by_cases c2 : m = a
      · subst c2; simp [ha, c1]
      · simp [c1, c2]
  refine ⟨_, hok, rfl, ?_, ?_, ?_, ?_, ?_⟩
  · rw [hget]
    simp only [Int.toNat_ofNat, if_true]
    split
    · rename_i h; rw [h]
    · rfl
  · rw [hget]; simp
  · intro m h1 h2
    rw [hget]
    simp only [Int.toNat_ofNat] at h1 h2
    simp [h1, h2]
  · have hl := length_elems s hwf
    have hae : a < s.elems.length := by omega
    have hbe : b < s.elems.length := by omega
    have heq : FloatSlice.elems ⟨(s.arr.set a s.arr[b]).set b s.arr[a], s.len⟩
        = (s.elems.set a s.elems[b]).set b s.elems[a] := by
      apply List.ext_getElem?
      intro m
      rw [hget, getElem?_swapped s.elems a b hae hbe,
        List.getElem?_eq_getElem hae, List.getElem?_eq_getElem hbe]
    rw [heq]
    exact swapped_perm s.elems a b hae hbe
  · have hwf2 : (⟨(s.arr.set a s.arr[b]).set b s.arr[a], s.len⟩ : FloatSlice α).WF := by
      simpa [FloatSlice.WF, FloatSlice.cap] using hwf
    obtain ⟨ha3, hb3, hok2⟩ := Swap_ok _ a b hwf2 ha hb
    rw [hok2]
    congr 1
    have := swapped_swapped s.arr a b ha2 hb2 _ _
      (List.getElem?_eq_getElem ha3) (List.getElem?_eq_getElem hb3)
    cases s
    simp only at this ⊢
    rw [this]

theorem Swap_spec_witness :
    (⟨[1, 2, 3, 4, 5], 4⟩ : FloatSlice Int).WF ∧ (0 : Int) ≤ 1 ∧ (1 : Int) < ((4 : Nat) : Int) ∧
    (0 : Int) ≤ 3 ∧ (3 : Int) < ((4 : Nat) : Int) ∧
    ∃ s2, (⟨[1, 2, 3, 4, 5], 4⟩ : FloatSlice Int).Swap 1 3 = .ok () s2 ∧ s2.len = 4 ∧
      s2.elems[(1 : Int).toNat]? = (⟨[1, 2, 3, 4, 5], 4⟩ : FloatSlice Int).elems[(3 : Int).toNat]? ∧
      s2.elems[(3 : Int).toNat]? = (⟨[1, 2, 3, 4, 5], 4⟩ : FloatSlice Int).elems[(1 : Int).toNat]? ∧
      (∀ m, m ≠ (1 : Int).toNat → m ≠ (3 : Int).toNat →
        s2.elems[m]? = (⟨[1, 2, 3, 4, 5], 4⟩ : FloatSlice Int).elems[m]?) ∧
      s2.elems.Perm (⟨[1, 2, 3, 4, 5], 4⟩ : FloatSlice Int).elems ∧
      s2.Swap 1 3 = .ok () (⟨[1, 2, 3, 4, 5], 4⟩ : FloatSlice Int) :=
  ⟨by decide, by decide, by decide, by decide, by decide,
    Swap_spec (⟨[1, 2, 3, 4, 5], 4⟩ : FloatSlice Int) 1 3
      (by decide) (by decide) (by decide) (by decide) (by decide)⟩

/-! ## Fill -/

theorem fillLoop_ok (vl : α) :
    ∀ (k : Nat) (s : FloatSlice α) (a b : Nat), b - a = k → b ≤ s.len → s.WF →
      ∃ s2, fillLoop s (a : Int) (b : Int) vl = .ok () s2 ∧ s2.len = s.len ∧
        s2.arr.length = s.arr.length ∧
        ∀ m, s2.arr[m]? = if a ≤ m ∧ m < b then some vl else s.arr[m]? := by
  intro k
  induction k with
  | zero =>
    intro s a b hk _ _
    refine ⟨s, ?_, rfl, rfl, ?_⟩
    · rw [fillLoop, if_neg (by omega)]
    · intro m
      rw [if_neg (by omega)]
  | succ k ih =>
    intro s a b hk hb hwf
    have hcap : s.len ≤ s.arr.length := hwf
    have hwf2 : (⟨s.arr.set a vl, s.len⟩ : FloatSlice α).WF := by
      simpa [FloatSlice.WF, FloatSlice.cap] using hwf
    obtain ⟨s2, hok, hlen, harr, hget⟩ := ih ⟨s.arr.set a vl, s.len⟩ (a + 1) b (by omega) hb hwf2
    refine ⟨s2, ?_, hlen, by simpa using harr, ?_⟩
    · rw [fillLoop, if_pos (by omega), if_pos (by omega)]
      simpa using hok
    · intro m
      rw [hget m]
      simp only [List.getElem?_set]
      by_cases c1 : a = m
      · subst c1
        simp [show a < s.arr.length by omega, show a < b by omega]
      · by_cases c2 : a + 1 ≤ m ∧ m < b
        · simp [c2, show a ≤ m by omega]
        · simp only [c2, c1, if_false]
          rw [if_neg (by omega)]

/-- C7: for a well-formed slice `s`, `0 <= from <= to <= len(s)` and a value
`v`, `s.Fill(from, to, v)` returns normally with the length unchanged; every
position in `[from, to)` holds `v` and every other position holds its old value. -/
theorem Fill_spec (s : FloatSlice α) (frm til : Int) (v : α) (hwf : s.WF)
    (h0 : 0 ≤ frm) (h1 : frm ≤ til) (h2 : til ≤ (s.len : Int)) :
    ∃ s2, s.Fill frm til v = .ok () s2 ∧ s2.len = s.len ∧
      ∀ m, m < s.len →
        s2.elems[m]? = if frm ≤ (m : Int) ∧ (m : Int) < til then some v else s.elems[m]? := by
  obtain ⟨a, rfl⟩ := Int.eq_ofNat_of_zero_le h0
  obtain ⟨b, rfl⟩ := Int.eq_ofNat_of_zero_le (le_trans h0 h1)
  obtain ⟨s2, hok, hlen, _, hget⟩ := fillLoop_ok v (b - a) s a b rfl (by omega) hwf
  refine ⟨s2, hok, hlen, ?_⟩
  intro m hm
  rw [getElem?_elems, getElem?_elems, hlen, if_pos hm, if_pos hm, hget]
  by_cases c : a ≤ m ∧ m < b
  · rw [if_pos c, if_pos (by omega)]
  · rw [if_neg c, if_neg (by omega)]

theorem Fill_spec_witness :
    (⟨[1, 2, 3, 4, 5], 5⟩ : FloatSlice Int).WF ∧ (0 : Int) ≤ 1 ∧ (1 : Int) ≤ 3 ∧
    (3 : Int) ≤ ((5 : Nat) : Int) ∧
    ∃ s2, (⟨[1, 2, 3, 4, 5], 5⟩ : FloatSlice Int).Fill 1 3 0 = .ok () s2 ∧ s2.len = 5 ∧
      ∀ m : Nat, m < 5 →
        s2.elems[m]? = if (1 : Int) ≤ (m : Int) ∧ (m : Int) < 3 then some 0
          else (⟨[1, 2, 3, 4, 5], 5⟩ : FloatSlice Int).elems[m]? :=
  ⟨by decide, by decide, by decide, by decide,
    Fill_spec (⟨[1, 2, 3, 4, 5], 5⟩ : FloatSlice Int) 1 3 0
      (by decide) (by decide) (by decide) (by decide)⟩

/-! ## Clear -/

/-- C9: for every slice `s`, the nil slice included, `s.Clear()` returns
normally and leaves a slice of length 0 with no elements. -/
theorem Clear_spec (s : FloatSlice α) :
    ∃ s2, s.Clear = .ok () s2 ∧ s2.len = 0 ∧ s2.elems = [] ∧
      ∃ s3, (FloatSlice.nil : FloatSlice α).Clear = .ok () s3 ∧ s3.len = 0 := by
  have h : ∀ t : FloatSlice α, ∃ t2, t.Clear = .ok () t2 ∧ t2.len = 0 ∧ t2.elems = [] := by
    intro t
    have hs : sliceTo t 0 = some ⟨0, 0⟩ := by
      unfold sliceTo slice
      rw [if_pos (by omega)]
      rfl
    exact ⟨sub t ⟨0, 0⟩, by simp only [FloatSlice.Clear, hs], rfl, by simp [FloatSlice.elems, sub]⟩
  obtain ⟨s2, h1, h2, h3⟩ := h s
  obtain ⟨s3, h4, h5, _⟩ := h FloatSlice.nil
  exact ⟨s2, h1, h2, h3, s3, h4, h5⟩

/-! ## Insert with an index out of range -/

theorem insertCopy_panic (s1 : FloatSlice α) (index : Int) (e : List α) (L : Nat)
    (hlen : s1.len = L + e.length) (hwf : s1.WF) (h : index < 0 ∨ (L : Int) < index) :
    insertCopy s1 index e = .panic .sliceBoundsOutOfRange s1 := by
  by_cases c : index + (e.length : Int) < 0 ∨ (s1.len : Int) < index + (e.length : Int)
  · simp only [insertCopy, sliceFrom_eq_none s1 _ c]
  · have hneg : index < 0 := by omega
    obtain ⟨n, hn⟩ := Int.eq_ofNat_of_zero_le (show 0 ≤ index + (e.length : Int) by omega)
    have h1 : sliceFrom s1 (index + (e.length : Int)) = some ⟨n, s1.len - n⟩ := by
      rw [hn]; exact sliceFrom_eq_some s1 n (by omega) hwf
    simp only [insertCopy, h1, sliceFrom_eq_none s1 index (Or.inl hneg)]

theorem Insert_panic [Inhabited α] (g : Nat → Nat → Nat) (s : FloatSlice α) (index : Int)
    (e : List α) (hwf : s.WF) (h : index < 0 ∨ (s.len : Int) < index) :
    ∃ s1, s.Insert g index e = .panic .sliceBoundsOutOfRange s1 ∧
      s1.len = s.len + e.length := by
  obtain ⟨s1, hI, hlen, hwf1, _⟩ := Insert_lengthen g s e hwf
  exact ⟨s1, by rw [hI, insertCopy_panic s1 index e s.len hlen hwf1 h], hlen⟩

/-- C10: for a well-formed slice `s`, every `index` and every argument list `e`
(the empty list included), `s.Insert(index, e...)` panics with a slice-bounds
out-of-range error if and only if `index < 0` or `index > len(s)`, and it
returns normally if and only if `0 <= index <= len(s)`. -/
theorem Insert_panics_iff [Inhabited α] (g : Nat → Nat → Nat) (s : FloatSlice α)
    (index : Int) (e : List α) (hwf : s.WF) :
    ((∃ s2, s.Insert g index e = .panic .sliceBoundsOutOfRange s2) ↔
        (index < 0 ∨ (s.len : Int) < index)) ∧
      ((∃ s2, s.Insert g index e = .ok () s2) ↔ (0 ≤ index ∧ index ≤ (s.len : Int))) := by
  by_cases c : index < 0 ∨ (s.len : Int) < index
  · obtain ⟨s1, hp, _⟩ := Insert_panic g s index e hwf c
    refine ⟨⟨fun _ => c, fun _ => ⟨s1, hp⟩⟩, ⟨?_, fun h => absurd c (by omega)⟩⟩
    rintro ⟨s2, h2⟩
    rw [hp] at h2
    cases h2
  · have h0 : 0 ≤ index := by omega
    obtain ⟨n, rfl⟩ := Int.eq_ofNat_of_zero_le h0
    obtain ⟨s2, hok, _⟩ := Insert_ok g s n e hwf (by omega)
    refine ⟨⟨?_, fun h => absurd h c⟩, ⟨fun _ => by omega, fun _ => ⟨s2, hok⟩⟩⟩
    rintro ⟨s3, h3⟩
    rw [hok] at h3
    cases h3

theorem Insert_panics_iff_witness :
    (⟨[1, 2, 3], 3⟩ : FloatSlice Int).WF ∧
    (((∃ s2, (⟨[1, 2, 3], 3⟩ : FloatSlice Int).Insert (fun c _ => 2 * c) 4 []
          = .panic .sliceBoundsOutOfRange s2) ↔
        ((4 : Int) < 0 ∨ ((3 : Nat) : Int) < 4)) ∧
      ((∃ s2, (⟨[1, 2, 3], 3⟩ : FloatSlice Int).Insert (fun c _ => 2 * c) 4 [] = .ok () s2) ↔
        ((0 : Int) ≤ 4 ∧ (4 : Int) ≤ ((3 : Nat) : Int)))) :=
  ⟨by decide,
    Insert_panics_iff (fun c _ => 2 * c) (⟨[1, 2, 3], 3⟩ : FloatSlice Int) 4 [] (by decide)⟩

/-! ## The receiver after a failed call -/

/-- Counterexample to C11: `Insert` at index 4 into `[1 2 3]` (capacity 3) with two
elements panics, and leaves the receiver with length 5, not 3. -/
theorem Insert_panic_lengthened :
    (⟨[1, 2, 3], 3⟩ : FloatSlice Int).Insert (fun c _ => 2 * c) 4 [7, 8]
        = .panic .sliceBoundsOutOfRange ⟨[1, 2, 3, 7, 8, 0], 5⟩ ∧
      (⟨[1, 2, 3, 7, 8, 0], 5⟩ : FloatSlice Int).len ≠ (⟨[1, 2, 3], 3⟩ : FloatSlice Int).len ∧
      (⟨[1, 2, 3, 7, 8, 0], 5⟩ : FloatSlice Int).elems ≠ (⟨[1, 2, 3], 3⟩ : FloatSlice Int).elems := by
  decide

/-- C11, amended: for a well-formed slice `s`, an index that is out of range and
every argument list `e`, `Insert` panics after it has lengthened the receiver:
the receiver is left with length `len(s) + len(e)`, its first `len(s)` elements
are the old elements in the old order, and it is the old slice when `e` is empty. -/
theorem Insert_panic_state [Inhabited α] (g : Nat → Nat → Nat) (s : FloatSlice α)
    (index : Int) (e : List α) (hwf : s.WF) (h : index < 0 ∨ (s.len : Int) < index) :
    ∃ s1, s.Insert g index e = .panic .sliceBoundsOutOfRange s1 ∧
      s1.len = s.len + e.length ∧ s1.elems.take s.len = s.elems ∧
      (e = [] → s1.len = s.len ∧ s1.elems = s.elems) := by
  obtain ⟨s1, hI, hlen, hwf1, harr⟩ := Insert_lengthen g s e hwf
  have htake : s1.elems.take s.len = s.elems := by
    apply List.ext_getElem?
    intro m
    simp only [List.getElem?_take, getElem?_elems, hlen]
    by_cases c : m < s.len
    · simp [c, show m < s.len + e.length by omega, harr m c]
    · simp [c]
  refine ⟨s1, by rw [hI, insertCopy_panic s1 index e s.len hlen hwf1 h], hlen, htake, ?_⟩
  intro he
  subst he
  have hl : s1.len = s.len := by simpa using hlen
  refine ⟨hl, ?_⟩
  rw [← htake, ← hl]
  simp [FloatSlice.elems]

theorem Insert_panic_state_witness :
    (⟨[1, 2, 3], 3⟩ : FloatSlice Int).WF ∧ ((4 : Int) < 0 ∨ ((3 : Nat) : Int) < 4) ∧
    ∃ s1, (⟨[1, 2, 3], 3⟩ : FloatSlice Int).Insert (fun c _ => 2 * c) 4 [7, 8]
        = .panic .sliceBoundsOutOfRange s1 ∧
      s1.len = 3 + 2 ∧ s1.elems.take 3 = (⟨[1, 2, 3], 3⟩ : FloatSlice Int).elems ∧
      (([7, 8] : List Int) = [] →
        s1.len = 3 ∧ s1.elems = (⟨[1, 2, 3], 3⟩ : FloatSlice Int).elems) :=
  ⟨by decide, by decide,
    Insert_panic_state (fun c _ => 2 * c) (⟨[1, 2, 3], 3⟩ : FloatSlice Int) 4 [7, 8]
      (by decide) (by decide)⟩

/-- Counterexample to C12: `RemoveRange(4, 1)` on `[1 2 3 4 5]` has `from > to`, yet
it returns normally, with a slice of length 8. -/
theorem RemoveRange_reversed_returns :
    (⟨[1, 2, 3, 4, 5], 5⟩ : FloatSlice Int).RemoveRange (fun c _ => 2 * c) 4 1
      = .ok () ⟨[1, 2, 3, 4, 2, 3, 4, 5, 0, 0], 8⟩ := by
  decide

/-- C12, amended: for every slice `s` and every pair with `from < 0`,
`from > cap(s)`, `to < 0` or `to > len(s)`, `RemoveRange(from, to)` panics with a
slice-bounds out-of-range error and leaves the receiver as it was. -/
theorem RemoveRange_panic [Inhabited α] (g : Nat → Nat → Nat) (s : FloatSlice α)
    (frm til : Int)
    (h : frm < 0 ∨ (s.cap : Int) < frm ∨ til < 0 ∨ (s.len : Int) < til) :
    s.RemoveRange g frm til = .panic .sliceBoundsOutOfRange s := by
  by_cases c : frm < 0 ∨ (s.cap : Int) < frm
  · have h1 : slice s 0 frm = none := by
      unfold slice
      rw [if_neg (by omega)]
    simp only [FloatSlice.RemoveRange, h1]
  · have h2 : sliceFrom s til = none := sliceFrom_eq_none s til (by omega)
    simp only [FloatSlice.RemoveRange, h2]
    split <;> rfl

theorem RemoveRange_panic_witness :
    ((6 : Int) < 0 ∨ (((⟨[1, 2, 3, 4, 5], 5⟩ : FloatSlice Int).cap : Nat) : Int) < 6 ∨
      (7 : Int) < 0 ∨ ((5 : Nat) : Int) < 7) ∧
    (⟨[1, 2, 3, 4, 5], 5⟩ : FloatSlice Int).RemoveRange (fun c _ => 2 * c) 6 7
      = .panic .sliceBoundsOutOfRange ⟨[1, 2, 3, 4, 5], 5⟩ :=
  ⟨by decide,
    RemoveRange_panic (fun c _ => 2 * c) (⟨[1, 2, 3, 4, 5], 5⟩ : FloatSlice Int) 6 7 (by decide)⟩

/-- Counterexample to C13: `Fill(9, 7, 0)` on `[1 2 3 4 5]` has `from > to` and
`to > len(s)`, yet it returns normally and changes nothing. -/
theorem Fill_reversed_returns :
    (⟨[1, 2, 3, 4, 5], 5⟩ : FloatSlice Int).Fill 9 7 0 = .ok () ⟨[1, 2, 3, 4, 5], 5⟩ := by
  rw [FloatSlice.Fill, fillLoop]
  decide

theorem fillLoop_panic (vl : α) :
    ∀ (k : Nat) (s : FloatSlice α) (a : Nat) (til : Int), s.len - a = k →
      (a : Int) < til → (s.len : Int) < til →
      ∃ s2, fillLoop s (a : Int) til vl = .panic .indexOutOfRange s2 ∧ s2.len = s.len := by
  intro k
  induction k with
  | zero =>
    intro s a til hk h1 _
    refine ⟨s, ?_, rfl⟩
    rw [fillLoop, if_pos h1, if_neg (by omega)]
  | succ k ih =>
    intro s a til hk h1 h2
    have hk2 : (⟨s.arr.set a vl, s.len⟩ : FloatSlice α).len - (a + 1) = k :=
      show s.len - (a + 1) = k by omega
    have h12 : ((a + 1 : Nat) : Int) < til := by push_cast; omega
    obtain ⟨s2, hp, hlen⟩ := ih ⟨s.arr.set a vl, s.len⟩ (a + 1) til hk2 h12 h2
    refine ⟨s2, ?_, hlen⟩
    rw [fillLoop, if_pos h1, if_pos (by omega)]
    simpa using hp

/-- C13, amended: for a well-formed slice `s` and every value `v`,
`s.Fill(from, to, v)` panics with an index out-of-range error if and only if
`from < to` and (`from < 0` or `to > len(s)`); a pair with `from >= to` returns
normally and changes nothing, whatever its values. -/
theorem Fill_panics_iff (s : FloatSlice α) (frm til : Int) (v : α) (hwf : s.WF) :
    ((∃ s2, s.Fill frm til v = .panic .indexOutOfRange s2) ↔
        (frm < til ∧ (frm < 0 ∨ (s.len : Int) < til))) ∧
      (til ≤ frm → s.Fill frm til v = .ok () s) := by
  have hno : til ≤ frm → s.Fill frm til v = .ok () s := by
    intro h
    rw [FloatSlice.Fill, fillLoop, if_neg (by omega)]
  refine ⟨⟨?_, ?_⟩, hno⟩
  · rintro ⟨s2, hp⟩
    by_contra hc
    by_cases c1 : til ≤ frm
    · rw [hno c1] at hp
      cases hp
    · have h0 : 0 ≤ frm := by omega
      obtain ⟨a, rfl⟩ := Int.eq_ofNat_of_zero_le h0
      obtain ⟨b, rfl⟩ := Int.eq_ofNat_of_zero_le (show 0 ≤ til by omega)
      obtain ⟨s3, hok, _⟩ := fillLoop_ok v (b - a) s a b rfl (by omega) hwf
      rw [FloatSlice.Fill, hok] at hp
      cases hp
  · rintro ⟨h1, h2⟩
    by_cases c : frm < 0
    · refine ⟨s, ?_⟩
      rw [FloatSlice.Fill, fillLoop, if_pos h1, if_neg (by omega)]
    · obtain ⟨a, rfl⟩ := Int.eq_ofNat_of_zero_le (show 0 ≤ frm by omega)
      obtain ⟨s2, hp, _⟩ := fillLoop_panic v (s.len - a) s a til rfl h1 (by omega)
      exact ⟨s2, hp⟩

theorem Fill_panics_iff_witness :
    (⟨[1, 2, 3, 4, 5], 5⟩ : FloatSlice Int).WF ∧
    (((∃ s2, (⟨[1, 2, 3, 4, 5], 5⟩ : FloatSlice Int).Fill 3 7 0 = .panic .indexOutOfRange s2) ↔
        ((3 : Int) < 7 ∧ ((3 : Int) < 0 ∨ ((5 : Nat) : Int) < 7))) ∧
      ((7 : Int) ≤ 3 →
        (⟨[1, 2, 3, 4, 5], 5⟩ : FloatSlice Int).Fill 3 7 0 = .ok () ⟨[1, 2, 3, 4, 5], 5⟩)) :=
  ⟨by decide, Fill_panics_iff (⟨[1, 2, 3, 4, 5], 5⟩ : FloatSlice Int) 3 7 0 (by decide)⟩

/-! ## DeepestNested -/

theorem Deepest_eq_DeepestNested (m : String) (n : GoError) :
    NestedError.Deepest (.ref m n) = DeepestNested n := by
  cases n <;> simp [NestedError.Deepest, DeepestNested]

theorem DeepestNested_nested_ref (m : String) (n : GoError) :
    DeepestNested (.nested (.ref m n)) = DeepestNested n := by
  rw [← Deepest_eq_DeepestNested m n]; rfl

theorem reaches_of_nested_ref {m : String} {n e : GoError}
    (h : Reaches (.nested (.ref m n)) e) : e = .nested (.ref m n) ∨ Reaches n e := by
  rcases Relation.ReflTransGen.cases_head h with h1 | ⟨c, hc, hr⟩
  · exact Or.inl h1.symm
  · cases hc
    exact Or.inr hr

theorem reaches_of_not_ref {a e : GoError} (ha : ∀ m n, a ≠ .nested (.ref m n))
    (h : Reaches a e) : e = a := by
  rcases Relation.ReflTransGen.cases_head h with h1 | ⟨c, hc, hr⟩
  · exact h1.symm
  · cases hc
    exact absurd rfl (ha _ _)

/-- On a chain without a nil pointer `DeepestNested` returns, and what it returns
is the one error reachable from `err` that is not a `*NestedError`. -/
theorem DeepestNested_returns : (err : GoError) → err.hasNilLink = false →
    ∃ d, DeepestNested err = .returns d ∧ Reaches err d ∧ d.isNested = false ∧
      ∀ e, Reaches err e → e.isNested = false → e = d
  | .nil, _ => ⟨.nil, rfl, Relation.ReflTransGen.refl, rfl,
      fun e he _ => reaches_of_not_ref (fun _ _ h => by cases h) he⟩
  | .other id, _ => ⟨.other id, rfl, Relation.ReflTransGen.refl, rfl,
      fun e he _ => reaches_of_not_ref (fun _ _ h => by cases h) he⟩
  | .nested .nil, h => by simp [GoError.hasNilLink, NestedErrorPtr.hasNilLink] at h
  | .nested (.ref m n), h => by
    have hn : n.hasNilLink = false := by
      simpa [GoError.hasNilLink, NestedErrorPtr.hasNilLink] using h
    obtain ⟨d, hd, hr, hnn, hu⟩ := DeepestNested_returns n hn
    refine ⟨d, by rw [DeepestNested_nested_ref, hd],
      Relation.ReflTransGen.head (NestedLink.field m n) hr, hnn, ?_⟩
    intro e he hne
    rcases reaches_of_nested_ref he with h1 | h1
    · rw [h1] at hne; simp [GoError.isNested] at hne
    · exact hu e h1 hne

/-- The call panics exactly when the chain comes to a nil `*NestedError` pointer. -/
theorem DeepestNested_panics_iff : (err : GoError) →
    (DeepestNested err = .nilDereference ↔ err.hasNilLink = true)
  | .nil => by simp [DeepestNested, GoError.hasNilLink]
  | .other id => by simp [DeepestNested, GoError.hasNilLink]
  | .nested .nil => by
    simp [DeepestNested, NestedError.Deepest, GoError.hasNilLink, NestedErrorPtr.hasNilLink]
  | .nested (.ref m n) => by
    rw [DeepestNested_nested_ref, DeepestNested_panics_iff n]
    simp [GoError.hasNilLink, NestedErrorPtr.hasNilLink]

/-- The chain comes to a nil pointer exactly when an error holding the nil
`*NestedError` is reachable along `Nested` fields. -/
theorem hasNilLink_iff_reaches : (err : GoError) →
    (err.hasNilLink = true ↔ Reaches err (.nested .nil))
  | .nil => by
    simp only [GoError.hasNilLink, Bool.false_eq_true, false_iff]
    intro h; have := reaches_of_not_ref (fun _ _ h => by cases h) h; cases this
  | .other id => by
    simp only [GoError.hasNilLink, Bool.false_eq_true, false_iff]
    intro h; have := reaches_of_not_ref (fun _ _ h => by cases h) h; cases this
  | .nested .nil => by
    simp only [GoError.hasNilLink, NestedErrorPtr.hasNilLink, true_iff]
    exact Relation.ReflTransGen.refl
  | .nested (.ref m n) => by
    have ih := hasNilLink_iff_reaches n
    simp only [GoError.hasNilLink, NestedErrorPtr.hasNilLink]
    rw [ih]
    constructor
    · intro h; exact Relation.ReflTransGen.head (NestedLink.field m n) h
    · intro h
      rcases reaches_of_nested_ref h with h1 | h1
      · cases h1
      · exact h1

/-- Counterexample to C19: for a nil `*NestedError` held in an `error`
(`var p *NestedError; DeepestNested(p)`) the type assertion succeeds and
`Deepest` dereferences the nil pointer: the call panics and returns no error at
all; the same happens when a `Nested` field holds the nil pointer, and for
`Deepest` on a nil receiver. -/
theorem DeepestNested_nil_pointer_panics :
    DeepestNested (.nested .nil) = .nilDereference ∧
    (¬ ∃ d, DeepestNested (.nested .nil) = .returns d ∧ Reaches (.nested .nil) d ∧
      d.isNested = false) ∧
    DeepestNested (.nested (.ref "outer" (.nested .nil))) = .nilDereference ∧
    NestedError.Deepest .nil = .nilDereference := by
  refine ⟨rfl, ?_, rfl, rfl⟩
  rintro ⟨d, hd, _⟩
  have h2 : ErrorResult.nilDereference = ErrorResult.returns d := hd
  cases h2

/-- C19, amended: for every error value whose chain of `*NestedError` links is
finite and comes to no nil `*NestedError` pointer, `DeepestNested(err)` returns
an error that is reached from `err` by following `Nested` fields, is not a
`*NestedError`, and is the only such error: it is `err` itself when `err` is
not a `*NestedError`, nil when the chain ends in a nil `Nested`; and `Deepest`
on a `*NestedError` receiver returns the same value. -/
theorem DeepestNested_spec (err : GoError) (hptr : err.hasNilLink = false) :
    ∃ d, DeepestNested err = .returns d ∧
      Reaches err d ∧ d.isNested = false ∧
      (∀ e, Reaches err e → e.isNested = false → e = d) ∧
      (err.isNested = false → d = err) ∧
      (Reaches err .nil → d = .nil) ∧
      (∀ ne, err = .nested ne → NestedError.Deepest ne = .returns d) := by
  obtain ⟨d, hd, hr, hnn, hu⟩ := DeepestNested_returns err hptr
  refine ⟨d, hd, hr, hnn, hu, ?_, ?_, ?_⟩
  · intro h; exact (hu err Relation.ReflTransGen.refl h).symm
  · intro h; exact (hu .nil h rfl).symm
  · intro ne hne
    rw [← hd, hne]; rfl

theorem DeepestNested_spec_witness :
    (GoError.nested (.ref "outer" (.nested (.ref "inner" (.other 7))))).hasNilLink = false ∧
    ∃ d, DeepestNested (.nested (.ref "outer" (.nested (.ref "inner" (.other 7))))) = .returns d ∧
      Reaches (.nested (.ref "outer" (.nested (.ref "inner" (.other 7))))) d ∧
      d.isNested = false ∧
      (∀ e, Reaches (.nested (.ref "outer" (.nested (.ref "inner" (.other 7))))) e →
        e.isNested = false → e = d) ∧
      ((GoError.nested (.ref "outer" (.nested (.ref "inner" (.other 7))))).isNested = false →
        d = .nested (.ref "outer" (.nested (.ref "inner" (.other 7))))) ∧
      (Reaches (.nested (.ref "outer" (.nested (.ref "inner" (.other 7))))) .nil → d = .nil) ∧
      (∀ ne, GoError.nested (.ref "outer" (.nested (.ref "inner" (.other 7)))) = .nested ne →
        NestedError.Deepest ne = .returns d) :=
  ⟨by decide, DeepestNested_spec _ (by decide)⟩

/-! ## Insert against the two reference insertions -/

theorem store_singleton (arr : List α) (n : Nat) (v : α) (h : n < arr.length) :
    store arr n [v] = arr.set n v := by
  apply List.ext_getElem?
  intro m
  rw [getElem?_store _ _ _ _ (by simpa using h), List.getElem?_set]
  by_cases c1 : m < n
  · simp [c1, show n ≠ m by omega]
  · by_cases c2 : m < n + 1
    · have : n = m := by omega
      subst this
      simp [h]
    · simp [c1, c2, show n ≠ m by omega]

/-- The two `copy` calls of `Insert` on a lengthened slice whose first cells
hold the elements of `s`. -/
theorem insertCopy_elems (s s1 : FloatSlice α) (n : Nat) (e : List α) (hwf : s.WF)
    (hlen : s1.len = s.len + e.length) (hwf1 : s1.WF)
    (harr : ∀ m, m < s.len → s1.arr[m]? = s.arr[m]?) (hn : n ≤ s.len) :
    ∃ s2, insertCopy s1 (n : Int) e = .ok () s2 ∧ s2.len = s.len + e.length ∧
      s2.elems = s.elems.take n ++ e ++ s.elems.drop n := by
  obtain ⟨s2, hok, hl2, _, hget⟩ := insertCopy_ok s1 n e s.len hlen hwf1 hn
  refine ⟨s2, hok, by rw [hl2, hlen], ?_⟩
  apply List.ext_getElem?
  intro m
  rw [getElem?_elems, hget, hl2, hlen,
    getElem?_spliced _ _ _ _ (by rw [length_elems s hwf]; exact hn)]
  simp only [getElem?_elems]
  by_cases c1 : m < n
  · simp [c1, show m < s.len + e.length by omega, show m < s.len by omega, harr m (by omega)]
  · by_cases c2 : m < n + e.length
    · simp [c1, c2, show m < s.len + e.length by omega]
    · by_cases c3 : m < s.len + e.length
      · simp [c1, c2, c3, show m - e.length < s.len by omega, harr (m - e.length) (by omega)]
      · simp [c1, c2, c3, show ¬ m - e.length < s.len by omega]

theorem insertByCopy_ok [Inhabited α] (g : Nat → Nat → Nat) (s : FloatSlice α) (n : Nat)
    (v : α) (hwf : s.WF) (hn : n ≤ s.len) :
    ∃ s3, insertByCopy g s (n : Int) v = .ok () s3 ∧ s3.len = s.len + 1 ∧
      s3.elems = s.elems.take n ++ [v] ++ s.elems.drop n := by
  have hcap : s.len ≤ s.arr.length := hwf
  obtain ⟨hwf1, hlen1, hel1⟩ := Add_ok g s [default] hwf
  simp only [FloatSlice.Add, List.length_singleton] at hwf1 hlen1 hel1
  have hcap1 : (goAppend g s [default]).len ≤ (goAppend g s [default]).arr.length := hwf1
  have harr : ∀ m, m < s.len → (goAppend g s [default]).arr[m]? = s.arr[m]? := by
    intro m hm
    have h1 := congrArg (fun l => l[m]?) hel1
    simp only [getElem?_elems, hlen1, show m < s.len + 1 by omega, if_true] at h1
    rw [h1, List.getElem?_append_left (by rw [length_elems s hwf]; exact hm), getElem?_elems,
      if_pos hm]
  obtain ⟨s2, hok, hl2, hal2, hget⟩ :=
    insertCopy_ok (goAppend g s [default]) n [v] s.len hlen1 hwf1 hn
  obtain ⟨s2b, hokb, hlb, helb⟩ :=
    insertCopy_elems s (goAppend g s [default]) n [v] hwf hlen1 hwf1 harr hn
  have h1 : sliceFrom (goAppend g s [default]) ((n : Int) + 1) = some ⟨n + 1, s.len - n⟩ := by
    have := sliceFrom_eq_some (goAppend g s [default]) (n + 1) (by omega) hwf1
    rw [show ((n + 1 : Nat) : Int) = (n : Int) + 1 by push_cast; rfl] at this
    rw [this]; congr 2; omega
  have h2 : sliceFrom (goAppend g s [default]) (n : Int) = some ⟨n, s.len + 1 - n⟩ := by
    rw [sliceFrom_eq_some _ n (by omega) hwf1, hlen1]
  have hins : insertCopy (goAppend g s [default]) (n : Int) [v]
      = .ok () (copyFrom (copyWithin (goAppend g s [default]) ⟨n + 1, s.len - n⟩
          ⟨n, s.len + 1 - n⟩) ⟨n, s.len + 1 - n⟩ [v]) := by
    have h3 : sliceFrom (copyWithin (goAppend g s [default]) ⟨n + 1, s.len - n⟩
        ⟨n, s.len + 1 - n⟩) (n : Int) = some ⟨n, s.len + 1 - n⟩ := by
      unfold sliceFrom slice at h2 ⊢
      simpa [copyWithin, FloatSlice.cap, show min (s.len - n) (s.len + 1 - n) = s.len - n by omega,
        length_store _ _ _ (show n + 1 + (window (goAppend g s [default]).arr n (s.len - n)).length
          ≤ (goAppend g s [default]).arr.length by
            rw [length_window _ _ _ (by omega)]; omega)] using h2
    simp only [insertCopy, List.length_singleton, Nat.cast_one, h1, h2, h3]
  have hwl : (window (goAppend g s [default]).arr n (s.len - n)).length = s.len - n :=
    length_window _ _ _ (by omega)
  have hlc : (copyWithin (goAppend g s [default]) ⟨n + 1, s.len - n⟩ ⟨n, s.len + 1 - n⟩).arr.length
      = (goAppend g s [default]).arr.length := by
    simp only [copyWithin, show min (s.len - n) (s.len + 1 - n) = s.len - n by omega]
    exact length_store _ _ _ (by rw [hwl]; omega)
  have hset : (copyFrom (copyWithin (goAppend g s [default]) ⟨n + 1, s.len - n⟩
        ⟨n, s.len + 1 - n⟩) ⟨n, s.len + 1 - n⟩ [v])
      = ⟨(copyWithin (goAppend g s [default]) ⟨n + 1, s.len - n⟩ ⟨n, s.len + 1 - n⟩).arr.set n v,
          (copyWithin (goAppend g s [default]) ⟨n + 1, s.len - n⟩ ⟨n, s.len + 1 - n⟩).len⟩ := by
    simp only [copyFrom, List.length_singleton, show min (s.len + 1 - n) 1 = 1 by omega,
      List.take_succ_cons, List.take_zero]
    rw [store_singleton _ _ _ (by rw [hlc]; omega)]
  rw [hins] at hokb
  cases hokb
  refine ⟨_, ?_, hlb, helb⟩
  simp only [insertByCopy, h1, h2]
  rw [if_pos (by simp only [copyWithin, hlen1]; omega), hset]
  simp

theorem insertByAppend_ok [Inhabited α] (g : Nat → Nat → Nat) (s : FloatSlice α) (n : Nat)
    (v : α) (hwf : s.WF) (hn : n ≤ s.len) :
    ∃ s2, insertByAppend g s (n : Int) v = .ok () s2 ∧ s2.len = s.len + 1 ∧
      s2.elems = s.elems.take n ++ [v] ++ s.elems.drop n := by
  have hcap : s.len ≤ s.arr.length := hwf
  have h1 : sliceTo s (n : Int) = some ⟨0, n⟩ := by
    unfold sliceTo slice FloatSlice.cap
    rw [if_pos (by omega)]
    congr 2
  have h2 : sliceFrom s (n : Int) = some ⟨n, s.len - n⟩ := sliceFrom_eq_some s n hn hwf
  have hw : (window s.arr n (s.len - n)).length = s.len - n := length_window _ _ _ (by omega)
  have hwfv : (⟨[v], 1⟩ : FloatSlice α).WF := by
    simp [FloatSlice.WF, FloatSlice.cap]
  obtain ⟨_, hli, hei⟩ := Add_ok g ⟨[v], 1⟩ (window s.arr n (s.len - n)) hwfv
  simp only [FloatSlice.Add] at hli hei
  have hev : (⟨[v], 1⟩ : FloatSlice α).elems = [v] := by simp [FloatSlice.elems]
  rw [hev] at hei
  have hwfd : (sub s ⟨0, n⟩).WF := by
    simp only [FloatSlice.WF, FloatSlice.cap, sub, List.drop_zero]; omega
  obtain ⟨_, hlo, heo⟩ := Add_ok g (sub s ⟨0, n⟩)
    (goAppend g ⟨[v], 1⟩ (window s.arr n (s.len - n))).elems hwfd
  simp only [FloatSlice.Add] at hlo heo
  refine ⟨goAppend g (sub s ⟨0, n⟩)
    (goAppend g ⟨[v], 1⟩ (window s.arr n (s.len - n))).elems,
    by simp only [insertByAppend, h1, h2], ?_, ?_⟩
  · rw [hlo, hei]
    simp only [sub, List.length_append, List.length_singleton, hw]
    omega
  · rw [heo, hei]
    simp only [FloatSlice.elems, sub, List.drop_zero, window, List.take_take, List.drop_take,
      show min n s.len = n by omega, List.append_assoc]

/-- C20: for a well-formed slice `s`, `0 <= index <= len(s)` and a value `v`,
`s.Insert(index, v)`, the slice trick `append(s[:index], append([]float64{v},
s[index:]...)...)` and the procedure `s = append(s, 0); copy(s[index+1:],
s[index:]); s[index] = v` all return normally and leave the same element
sequence, old `s[0:index]`, `v`, old `s[index:]`. -/
theorem Insert_refines_references [Inhabited α] (g : Nat → Nat → Nat) (s : FloatSlice α)
    (index : Int) (v : α) (hwf : s.WF) (h0 : 0 ≤ index) (h1 : index ≤ (s.len : Int)) :
    ∃ s1 s2 s3, s.Insert g index [v] = .ok () s1 ∧ insertByAppend g s index v = .ok () s2 ∧
      insertByCopy g s index v = .ok () s3 ∧ s2.elems = s1.elems ∧ s3.elems = s1.elems ∧
      s1.elems = s.elems.take index.toNat ++ [v] ++ s.elems.drop index.toNat := by
  obtain ⟨n, rfl⟩ := Int.eq_ofNat_of_zero_le h0
  have hn : n ≤ s.len := by omega
  obtain ⟨s1, hok1, _, _, hel1⟩ := Insert_ok g s n [v] hwf hn
  obtain ⟨s2, hok2, _, hel2⟩ := insertByAppend_ok g s n v hwf hn
  obtain ⟨s3, hok3, _, hel3⟩ := insertByCopy_ok g s n v hwf hn
  exact ⟨s1, s2, s3, hok1, hok2, hok3, by rw [hel2, hel1], by rw [hel3, hel1],
    by simpa using hel1⟩

theorem Insert_refines_references_witness :
    (⟨[1, 2, 3, 0], 3⟩ : FloatSlice Int).WF ∧ (0 : Int) ≤ 1 ∧ (1 : Int) ≤ ((3 : Nat) : Int) ∧
    ∃ s1 s2 s3, (⟨[1, 2, 3, 0], 3⟩ : FloatSlice Int).Insert (fun c _ => 2 * c) 1 [9] = .ok () s1 ∧
      insertByAppend (fun c _ => 2 * c) (⟨[1, 2, 3, 0], 3⟩ : FloatSlice Int) 1 9 = .ok () s2 ∧
      insertByCopy (fun c _ => 2 * c) (⟨[1, 2, 3, 0], 3⟩ : FloatSlice Int) 1 9 = .ok () s3 ∧
      s2.elems = s1.elems ∧ s3.elems = s1.elems ∧
      s1.elems = (⟨[1, 2, 3, 0], 3⟩ : FloatSlice Int).elems.take (1 : Int).toNat ++ [9]
        ++ (⟨[1, 2, 3, 0], 3⟩ : FloatSlice Int).elems.drop (1 : Int).toNat :=
  ⟨by decide, by decide, by decide,
    Insert_refines_references (fun c _ => 2 * c) (⟨[1, 2, 3, 0], 3⟩ : FloatSlice Int) 1 9
      (by decide) (by decide) (by decide)⟩

/-! ## Strict weak orderings -/

theorem StrictWeakOrder.asymm {less : α → α → Bool} (h : StrictWeakOrder less) (a b : α)
    (hab : less a b = true) : less b a = false := by
  cases hba : less b a with
  | false => rfl
  | true =>
    have := h.trans a b a hab hba
    rw [h.irrefl a] at this
    cases this

theorem StrictWeakOrder.cotrans {less : α → α → Bool} (h : StrictWeakOrder less) (a b c : α)
    (hac : less a c = true) : less a b = true ∨ less b c = true := by
  cases hab : less a b with
  | true => exact Or.inl rfl
  | false =>
    cases hbc : less b c with
    | true => exact Or.inr rfl
    | false =>
      exfalso
      have hba : less b a = false := by
        cases hba : less b a with
        | false => rfl
        | true => rw [h.trans b a c hba hac] at hbc; cases hbc
      have hcb : less c b = false := by
        cases hcb : less c b with
        | false => rfl
        | true => rw [h.trans a c b hac hcb] at hab; cases hab
      have := (h.incomp_trans a b c hab hba hbc hcb).1
      rw [hac] at this
      cases this

/-- Transitivity of `a <= b` read as `less b a = false`. -/
theorem StrictWeakOrder.le_trans {less : α → α → Bool} (h : StrictWeakOrder less) (a b c : α)
    (hab : less b a = false) (hbc : less c b = false) : less c a = false := by
  cases hca : less c a with
  | false => rfl
  | true =>
    cases h.cotrans c b a hca with
    | inl h1 => rw [h1] at hbc; cases hbc
    | inr h1 => rw [h1] at hab; cases hab

/-! ## BinarySearch -/

theorem binarySearchLoop_spec {less : α → α → Bool} (hswo : StrictWeakOrder less) (l : List α)
    (t : α) (hs : SortedBy less l) :
    ∀ (k lo hi : Nat) (hhi : hi ≤ l.length), hi - lo = k → lo ≤ hi →
      (∀ i (h : i < l.length), i < lo → less l[i] t = true) →
      (∀ i (h : i < l.length), hi ≤ i → less l[i] t = false) →
      lo ≤ binarySearchLoop less l t lo hi hhi ∧ binarySearchLoop less l t lo hi hhi ≤ hi ∧
      (∀ i (h : i < l.length), i < binarySearchLoop less l t lo hi hhi → less l[i] t = true) ∧
      (∀ i (h : i < l.length), binarySearchLoop less l t lo hi hhi ≤ i → less l[i] t = false) := by
  have hsorted := List.pairwise_iff_getElem.1 hs
  intro k
  induction k using Nat.strong_induction_on with
  | _ k ih =>
    intro lo hi hhi hk hle hlow hhigh
    rw [binarySearchLoop]
    by_cases c : lo < hi
    · have hmid : lo + (hi - lo) / 2 < l.length := by omega
      simp only [dif_pos c]
      by_cases cl : less l[lo + (hi - lo) / 2] t = true
      · rw [if_pos cl]
        have hlow2 : ∀ i (h : i < l.length), i < lo + (hi - lo) / 2 + 1 → less l[i] t = true := by
          intro i h hi2
          by_cases ci : i = lo + (hi - lo) / 2
          · subst ci; exact cl
          · have := hsorted i (lo + (hi - lo) / 2) h hmid (by omega)
            cases hswo.cotrans _ l[i] _ cl with
            | inl h1 => rw [h1] at this; cases this
            | inr h1 => exact h1
        obtain ⟨h1, h2, h3, h4⟩ := ih (hi - (lo + (hi - lo) / 2 + 1)) (by omega)
          (lo + (hi - lo) / 2 + 1) hi hhi rfl (by omega) hlow2 hhigh
        exact ⟨by omega, h2, h3, h4⟩
      · rw [if_neg cl]
        have cl2 : less l[lo + (hi - lo) / 2] t = false := by
          cases hx : less l[lo + (hi - lo) / 2] t with
          | false => rfl
          | true => exact absurd hx cl
        have hhigh2 : ∀ i (h : i < l.length), lo + (hi - lo) / 2 ≤ i → less l[i] t = false := by
          intro i h hi2
          by_cases ci : i = lo + (hi - lo) / 2
          · subst ci; exact cl2
          · have := hsorted (lo + (hi - lo) / 2) i hmid h (by omega)
            cases hx : less l[i] t with
            | false => rfl
            | true =>
              cases hswo.cotrans _ l[lo + (hi - lo) / 2] _ hx with
              | inl h1 => rw [h1] at this; cases this
              | inr h1 => rw [h1] at cl2; cases cl2
        obtain ⟨h1, h2, h3, h4⟩ := ih (lo + (hi - lo) / 2 - lo) (by omega)
          lo (lo + (hi - lo) / 2) (by omega) rfl (by omega) hlow hhigh2
        exact ⟨h1, by omega, h3, h4⟩
    · simp only [dif_neg c]
      exact ⟨Nat.le_refl _, hle, hlow, fun i h hi2 => hhigh i h (by omega)⟩

theorem BinarySearch_fst (a : SortList α) (target : α) :
    (a.BinarySearch target).1
      = binarySearchLoop a.less a.list target 0 a.list.length (Nat.le_refl _) := by
  unfold SortList.BinarySearch
  dsimp only
  cases a.list[binarySearchLoop a.less a.list target 0 a.list.length (Nat.le_refl _)]? <;> rfl

theorem BinarySearch_snd (a : SortList α) (target : α) :
    (a.BinarySearch target).2 = true ↔
      ∃ x, a.list[(a.BinarySearch target).1]? = some x ∧ equivUnder a.less x target := by
  rw [BinarySearch_fst]
  unfold SortList.BinarySearch equivUnder
  dsimp only
  cases a.list[binarySearchLoop a.less a.list target 0 a.list.length (Nat.le_refl _)]? with
  | none => simp
  | some x => simp

theorem BinarySearch_position (a : SortList α) (target : α) (hswo : StrictWeakOrder a.less)
    (hs : SortedBy a.less a.list) :
    (a.BinarySearch target).1 ≤ a.list.length ∧
      (∀ i x, i < (a.BinarySearch target).1 → a.list[i]? = some x → a.less x target = true) ∧
      (∀ i x, (a.BinarySearch target).1 ≤ i → a.list[i]? = some x →
        a.less x target = false) := by
  rw [BinarySearch_fst]
  obtain ⟨_, h2, h3, h4⟩ := binarySearchLoop_spec hswo a.list target hs a.list.length 0
    a.list.length (Nat.le_refl _) rfl (Nat.zero_le _)
    (fun i _ hi => absurd hi (Nat.not_lt_zero i)) (fun i h hi => absurd h (by omega))
  refine ⟨h2, ?_, ?_⟩
  · intro i x hi hx
    obtain ⟨h, rfl⟩ := List.getElem?_eq_some.1 hx
    exact h3 i h hi
  · intro i x hi hx
    obtain ⟨h, rfl⟩ := List.getElem?_eq_some.1 hx
    exact h4 i h hi

/-- C18 (on the sort adapter modelled from the spec): for a strict weak ordering
`less`, a sequence sorted ascending per `less` and every target,
`BinarySearch(target)` returns a position `p` with `0 <= p <= length`, every
element before `p` compares `less` than the target and no element at or after
`p` does; `found` is true exactly when `p < length` and the element at `p` is
equal to the target under the comparator; every element of the sequence is found. -/
theorem BinarySearch_spec (a : SortList α) (target : α) (hswo : StrictWeakOrder a.less)
    (hs : SortedBy a.less a.list) :
    (a.BinarySearch target).1 ≤ a.list.length ∧
      (∀ i x, i < (a.BinarySearch target).1 → a.list[i]? = some x → a.less x target = true) ∧
      (∀ i x, (a.BinarySearch target).1 ≤ i → a.list[i]? = some x →
        a.less x target = false) ∧
      ((a.BinarySearch target).2 = true ↔
        ∃ x, a.list[(a.BinarySearch target).1]? = some x ∧ equivUnder a.less x target) ∧
      (∀ e, e ∈ a.list → (a.BinarySearch e).2 = true ∧
        ∃ x, a.list[(a.BinarySearch e).1]? = some x ∧ equivUnder a.less x e) := by
  obtain ⟨h1, h2, h3⟩ := BinarySearch_position a target hswo hs
  refine ⟨h1, h2, h3, BinarySearch_snd a target, ?_⟩
  intro e he
  obtain ⟨_, g2, g3⟩ := BinarySearch_position a e hswo hs
  have hsorted := List.pairwise_iff_getElem.1 hs
  obtain ⟨k, hk, hke⟩ := List.getElem_of_mem he
  have hpk : (a.BinarySearch e).1 ≤ k := by
    by_contra hc
    have := g2 k e (by omega) (by rw [List.getElem?_eq_getElem hk, hke])
    rw [hswo.irrefl e] at this
    cases this
  have hp : (a.BinarySearch e).1 < a.list.length := by omega
  have hx : a.list[(a.BinarySearch e).1]? = some a.list[(a.BinarySearch e).1] :=
    List.getElem?_eq_getElem hp
  have heq : equivUnder a.less a.list[(a.BinarySearch e).1] e := by
    refine ⟨g3 _ _ (Nat.le_refl _) hx, ?_⟩
    by_cases c : (a.BinarySearch e).1 = k
    · have : a.list[(a.BinarySearch e).1] = e := by
        have h5 : a.list[(a.BinarySearch e).1]? = some e := by
          rw [c, List.getElem?_eq_getElem hk, hke]
        rw [hx] at h5
        exact Option.some.inj h5
      rw [this]
      exact hswo.irrefl e
    · have := hsorted (a.BinarySearch e).1 k hp hk (by omega)
      rw [hke] at this
      exact this
  exact ⟨(BinarySearch_snd a e).2 ⟨_, hx, heq⟩, _, hx, heq⟩

/-- The usual order of the integers as a comparator. -/
theorem intLess_strictWeakOrder : StrictWeakOrder (fun a b : Int => decide (a < b)) where
  irrefl := by intro a; simp
  trans := by
    intro a b c h1 h2
    simp only [decide_eq_true_eq] at *
    omega
  incomp_trans := by
    intro a b c h1 h2 h3 h4
    simp only [decide_eq_false_iff_not] at *
    constructor <;> omega

theorem BinarySearch_spec_witness :
    StrictWeakOrder (SortList.mk (fun a b : Int => decide (a < b)) [1, 3, 3, 5, 7]).less ∧
    SortedBy (SortList.mk (fun a b : Int => decide (a < b)) [1, 3, 3, 5, 7]).less
      (SortList.mk (fun a b : Int => decide (a < b)) [1, 3, 3, 5, 7]).list ∧
    (((SortList.mk (fun a b : Int => decide (a < b)) [1, 3, 3, 5, 7]).BinarySearch 3).1
        ≤ (SortList.mk (fun a b : Int => decide (a < b)) [1, 3, 3, 5, 7]).list.length ∧
      (∀ i x, i < ((SortList.mk (fun a b : Int => decide (a < b)) [1, 3, 3, 5, 7]).BinarySearch 3).1 →
        (SortList.mk (fun a b : Int => decide (a < b)) [1, 3, 3, 5, 7]).list[i]? = some x →
        (SortList.mk (fun a b : Int => decide (a < b)) [1, 3, 3, 5, 7]).less x 3 = true) ∧
      (∀ i x, ((SortList.mk (fun a b : Int => decide (a < b)) [1, 3, 3, 5, 7]).BinarySearch 3).1 ≤ i →
        (SortList.mk (fun a b : Int => decide (a < b)) [1, 3, 3, 5, 7]).list[i]? = some x →
        (SortList.mk (fun a b : Int => decide (a < b)) [1, 3, 3, 5, 7]).less x 3 = false) ∧
      (((SortList.mk (fun a b : Int => decide (a < b)) [1, 3, 3, 5, 7]).BinarySearch 3).2 = true ↔
        ∃ x, (SortList.mk (fun a b : Int => decide (a < b)) [1, 3, 3, 5, 7]).list[
            ((SortList.mk (fun a b : Int => decide (a < b)) [1, 3, 3, 5, 7]).BinarySearch 3).1]?
            = some x ∧
          equivUnder (SortList.mk (fun a b : Int => decide (a < b)) [1, 3, 3, 5, 7]).less x 3) ∧
      (∀ e, e ∈ (SortList.mk (fun a b : Int => decide (a < b)) [1, 3, 3, 5, 7]).list →
        ((SortList.mk (fun a b : Int => decide (a < b)) [1, 3, 3, 5, 7]).BinarySearch e).2 = true ∧
        ∃ x, (SortList.mk (fun a b : Int => decide (a < b)) [1, 3, 3, 5, 7]).list[
            ((SortList.mk (fun a b : Int => decide (a < b)) [1, 3, 3, 5, 7]).BinarySearch e).1]?
            = some x ∧
          equivUnder (SortList.mk (fun a b : Int => decide (a < b)) [1, 3, 3, 5, 7]).less x e)) :=
  ⟨intLess_strictWeakOrder, by simp [SortedBy],
    BinarySearch_spec (SortList.mk (fun a b : Int => decide (a < b)) [1, 3, 3, 5, 7]) 3
      intLess_strictWeakOrder (by simp [SortedBy])⟩

/-! ## Binary heap: swaps -/

theorem getElem?_swapVals (l : List α) (i j : Nat) (x c : α) (hx : l[i]? = some x)
    (hc : l[j]? = some c) (m : Nat) :
    ((l.set i c).set j x)[m]? = if m = j then some x else if m = i then some c else l[m]? := by
  obtain ⟨hi, rfl⟩ := List.getElem?_eq_some.1 hx
  obtain ⟨hj, rfl⟩ := List.getElem?_eq_some.1 hc
  exact getElem?_swapped l i j hi hj m

theorem swapVals_perm (l : List α) (i j : Nat) (x c : α) (hx : l[i]? = some x)
    (hc : l[j]? = some c) : ((l.set i c).set j x).Perm l := by
  obtain ⟨hi, rfl⟩ := List.getElem?_eq_some.1 hx
  obtain ⟨hj, rfl⟩ := List.getElem?_eq_some.1 hc
  exact swapped_perm l i j hi hj

/-! ## Binary heap: sift-up -/

theorem siftUp_perm (less : α → α → Bool) :
    ∀ (i : Nat) (l : List α), (siftUp less l i).Perm l := by
  intro i
  induction i using Nat.strong_induction_on with
  | _ i ih =>
    intro l
    rw [siftUp]
    split
    · split
      · rename_i x y hx hy
        split
        · exact (ih _ (by omega) _).trans (swapVals_perm l i _ x y hx hy)
        · exact List.Perm.refl _
      · exact List.Perm.refl _
    · exact List.Perm.refl _

theorem heapUp_step {less : α → α → Bool} (hswo : StrictWeakOrder less) (l : List α) (i : Nat)
    (x y : α) (hi : 0 < i) (hx : l[i]? = some x) (hy : l[(i - 1) / 2]? = some y)
    (hlt : less x y = true) (hinv : HeapUpAt less l i) :
    HeapUpAt less ((l.set i y).set ((i - 1) / 2) x) ((i - 1) / 2) := by
  obtain ⟨h1, h2⟩ := hinv
  have hg := getElem?_swapVals l i ((i - 1) / 2) x y hx hy
  constructor
  · intro m a b hm hmp ha hb
    rw [hg] at ha hb
    by_cases c1 : m = i
    · subst c1
      rw [if_neg hmp, if_pos rfl] at ha
      rw [if_pos rfl] at hb
      cases ha; cases hb
      exact hswo.asymm _ _ hlt
    · rw [if_neg hmp, if_neg c1] at ha
      by_cases c2 : (m - 1) / 2 = i
      · rw [if_neg (by omega), if_pos c2] at hb
        cases hb
        exact h2 m a y hi hm c2 ha hy
      · by_cases c3 : (m - 1) / 2 = (i - 1) / 2
        · rw [if_pos c3] at hb
          cases hb
          have h3 := h1 m a y hm c1 ha (by rw [c3]; exact hy)
          cases hab : less a x with
          | false => rfl
          | true => rw [hswo.trans a x y hab hlt] at h3; cases h3
        · rw [if_neg c3, if_neg c2] at hb
          exact h1 m a b hm c1 ha hb
  · intro m a b hp hm hmp ha hb
    rw [hg] at ha hb
    rw [if_neg (by omega), if_neg (by omega)] at hb
    have hyz : less y b = false := h1 ((i - 1) / 2) y b hp (by omega) hy hb
    by_cases c1 : m = i
    · subst c1
      rw [if_neg (by omega), if_pos rfl] at ha
      cases ha
      exact hyz
    · rw [if_neg (by omega), if_neg c1] at ha
      have h3 := h1 m a y hm c1 ha (by rw [hmp]; exact hy)
      exact hswo.le_trans b y a hyz h3

theorem siftUp_heap {less : α → α → Bool} (hswo : StrictWeakOrder less) :
    ∀ (i : Nat) (l : List α), i < l.length → HeapUpAt less l i → IsHeap less (siftUp less l i) := by
  intro i
  induction i using Nat.strong_induction_on with
  | _ i ih =>
    intro l hil hinv
    have hx : l[i]? = some l[i] := List.getElem?_eq_getElem hil
    rw [siftUp]
    by_cases hi : 0 < i
    · have hp : (i - 1) / 2 < l.length := by omega
      have hy : l[(i - 1) / 2]? = some l[(i - 1) / 2] := List.getElem?_eq_getElem hp
      simp only [dif_pos hi, hx, hy]
      by_cases hlt : less l[i] l[(i - 1) / 2] = true
      · rw [if_pos hlt]
        exact ih _ (by omega) _ (by simpa using hp) (heapUp_step hswo l i _ _ hi hx hy hlt hinv)
      · rw [if_neg hlt]
        intro j a b hj ha hb
        by_cases c : j = i
        · subst c
          rw [hx] at ha; rw [hy] at hb
          cases ha; cases hb
          cases h : less l[j] l[(j - 1) / 2] with
          | false => rfl
          | true => exact absurd h hlt
        · exact hinv.1 j a b hj c ha hb
    · simp only [dif_neg hi]
      intro j a b hj ha hb
      exact hinv.1 j a b hj (by omega) ha hb

/-! ## Binary heap: sift-down -/

/-- One step of sift-down: either it stops, and then no child of `i` compares
`less` than the node at `i`; or it swaps the node with a child `j` that compares
`less` than it and than which the other child does not compare `less`, and goes
on from `j`. -/
theorem siftDown_cases {less : α → α → Bool} (hswo : StrictWeakOrder less) (l : List α)
    (i : Nat) :
    (siftDown less l i = l ∧
        ∀ j a b, 0 < j → (j - 1) / 2 = i → l[j]? = some a → l[i]? = some b → less a b = false) ∨
      ∃ j x c, (j = 2 * i + 1 ∨ j = 2 * i + 2) ∧ l[i]? = some x ∧ l[j]? = some c ∧
        less c x = true ∧
        (∀ k d, (k = 2 * i + 1 ∨ k = 2 * i + 2) → l[k]? = some d → less d c = false) ∧
        siftDown less l i = siftDown less ((l.set i c).set j x) j := by
  rw [siftDown]
  split
  · rename_i x y hx hy
    split
    · rename_i z hz
      split
      · rename_i hzy
        split
        · rename_i hzx
          refine Or.inr ⟨2 * i + 2, x, z, Or.inr rfl, hx, hz, hzx, ?_, rfl⟩
          intro k d hk hd
          cases hk with
          | inl h => subst h; rw [hy] at hd; cases hd; exact hswo.asymm _ _ hzy
          | inr h => subst h; rw [hz] at hd; cases hd; exact hswo.irrefl _
        · rename_i hzx
          refine Or.inl ⟨rfl, ?_⟩
          intro j a b hj hji ha hb
          rw [hx] at hb; cases hb
          have hzx2 : less z x = false := by
            cases h : less z x with
            | false => rfl
            | true => exact absurd h hzx
          have hj2 : j = 2 * i + 1 ∨ j = 2 * i + 2 := by omega
          cases hj2 with
          | inl h =>
            subst h; rw [hy] at ha; cases ha
            cases hab : less y x with
            | false => rfl
            | true => rw [hswo.trans z y x hzy hab] at hzx2; cases hzx2
          | inr h => subst h; rw [hz] at ha; cases ha; exact hzx2
      · rename_i hzy
        have hzy2 : less z y = false := by
          cases h : less z y with
          | false => rfl
          | true => exact absurd h hzy
        split
        · rename_i hyx
          refine Or.inr ⟨2 * i + 1, x, y, Or.inl rfl, hx, hy, hyx, ?_, rfl⟩
          intro k d hk hd
          cases hk with
          | inl h => subst h; rw [hy] at hd; cases hd; exact hswo.irrefl _
          | inr h => subst h; rw [hz] at hd; cases hd; exact hzy2
        · rename_i hyx
          have hyx2 : less y x = false := by
            cases h : less y x with
            | false => rfl
            | true => exact absurd h hyx
          refine Or.inl ⟨rfl, ?_⟩
          intro j a b hj hji ha hb
          rw [hx] at hb; cases hb
          have hj2 : j = 2 * i + 1 ∨ j = 2 * i + 2 := by omega
          cases hj2 with
          | inl h => subst h; rw [hy] at ha; cases ha; exact hyx2
          | inr h =>
            subst h; rw [hz] at ha; cases ha
            exact hswo.le_trans x y z hyx2 hzy2
    · rename_i hz
      split
      · rename_i hyx
        refine Or.inr ⟨2 * i + 1, x, y, Or.inl rfl, hx, hy, hyx, ?_, rfl⟩
        intro k d hk hd
        cases hk with
        | inl h => subst h; rw [hy] at hd; cases hd; exact hswo.irrefl _
        | inr h => subst h; rw [hz] at hd; cases hd
      · rename_i hyx
        refine Or.inl ⟨rfl, ?_⟩
        intro j a b hj hji ha hb
        rw [hx] at hb; cases hb
        have hj2 : j = 2 * i + 1 ∨ j = 2 * i + 2 := by omega
        cases hj2 with
        | inl h =>
          subst h; rw [hy] at ha; cases ha
          cases h : less y x with
          | false => rfl
          | true => exact absurd h hyx
        | inr h => subst h; rw [hz] at ha; cases ha
  · rename_i hnone
    refine Or.inl ⟨rfl, ?_⟩
    intro j a b hj hji ha hb
    exfalso
    have hj2 : j = 2 * i + 1 ∨ j = 2 * i + 2 := by omega
    cases hj2 with
    | inl h => subst h; exact hnone b a hb ha
    | inr h =>
      subst h
      have h1 := (List.getElem?_eq_some.1 ha).1
      exact hnone b l[2 * i + 1] hb (List.getElem?_eq_getElem (by omega))

theorem siftDown_perm {less : α → α → Bool} (hswo : StrictWeakOrder less) :
    ∀ (k : Nat) (l : List α) (i : Nat), l.length - i = k → (siftDown less l i).Perm l := by
  intro k
  induction k using Nat.strong_induction_on with
  | _ k ih =>
    intro l i hk
    cases siftDown_cases hswo l i with
    | inl h => rw [h.1]
    | inr h =>
      obtain ⟨j, x, c, hj, hx, hc, _, _, heq⟩ := h
      have hjl := (List.getElem?_eq_some.1 hc).1
      rw [heq]
      refine (ih (((l.set i c).set j x).length - j) ?_ _ j rfl).trans
        (swapVals_perm l i j x c hx hc)
      simp only [List.length_set]
      omega

theorem heapDown_step {less : α → α → Bool} (hswo : StrictWeakOrder less) (l : List α)
    (k0 i j : Nat) (x c : α) (hj : j = 2 * i + 1 ∨ j = 2 * i + 2) (hx : l[i]? = some x)
    (hc : l[j]? = some c) (hlt : less c x = true)
    (hother : ∀ k d, (k = 2 * i + 1 ∨ k = 2 * i + 2) → l[k]? = some d → less d c = false)
    (hk0 : k0 ≤ i) (hinv : HeapDownAt less l k0 i) :
    HeapDownAt less ((l.set i c).set j x) k0 j := by
  obtain ⟨h1, h2⟩ := hinv
  have hg := getElem?_swapVals l i j x c hx hc
  constructor
  · intro m a b hm hk hmp ha hb
    rw [hg] at ha hb
    by_cases c1 : m = j
    · subst c1
      rw [if_pos rfl] at ha
      rw [if_neg hmp, if_pos (by omega)] at hb
      cases ha; cases hb
      exact hswo.asymm _ _ hlt
    · rw [if_neg c1] at ha
      by_cases c2 : m = i
      · subst c2
        rw [if_pos rfl] at ha
        rw [if_neg hmp, if_neg (by omega)] at hb
        cases ha
        exact h2 j c b hm hk (by omega) (by omega) hc hb
      · rw [if_neg c2] at ha
        by_cases c3 : (m - 1) / 2 = i
        · rw [if_neg hmp, if_pos c3] at hb
          cases hb
          exact hother m a (by omega) ha
        · rw [if_neg hmp, if_neg c3] at hb
          exact h1 m a b hm hk c3 ha hb
  · intro m a b hj0 hk hm hmp ha hb
    rw [hg] at ha hb
    rw [if_neg (by omega), if_neg (by omega)] at ha
    rw [if_neg (by omega), if_pos (by omega)] at hb
    cases hb
    exact h1 m a c hm (by omega) (by omega) ha (by rw [hmp]; exact hc)

theorem siftDown_heap {less : α → α → Bool} (hswo : StrictWeakOrder less) (k0 : Nat) :
    ∀ (k : Nat) (l : List α) (i : Nat), l.length - i = k → k0 ≤ i → HeapDownAt less l k0 i →
      HeapFrom less (siftDown less l i) k0 := by
  intro k
  induction k using Nat.strong_induction_on with
  | _ k ih =>
    intro l i hk hk0 hinv
    cases siftDown_cases hswo l i with
    | inl h =>
      rw [h.1]
      intro m a b hm hkm ha hb
      by_cases c : (m - 1) / 2 = i
      · exact h.2 m a b hm c ha (by rw [← c]; exact hb)
      · exact hinv.1 m a b hm hkm c ha hb
    | inr h =>
      obtain ⟨j, x, c, hj, hx, hc, hlt, hother, heq⟩ := h
      have hjl := (List.getElem?_eq_some.1 hc).1
      rw [heq]
      refine ih (((l.set i c).set j x).length - j) ?_ _ j rfl (by omega)
        (heapDown_step hswo l k0 i j x c hj hx hc hlt hother hk0 hinv)
      simp only [List.length_set]
      omega

/-! ## Binary heap: construction, Push, Pop -/

theorem heapifyFrom_perm {less : α → α → Bool} (hswo : StrictWeakOrder less) :
    ∀ (k : Nat) (l : List α), (heapifyFrom less k l).Perm l := by
  intro k
  induction k with
  | zero => intro l; exact List.Perm.refl _
  | succ k ih =>
    intro l
    rw [heapifyFrom]
    exact (ih _).trans (siftDown_perm hswo _ l k rfl)

theorem heapifyFrom_heap {less : α → α → Bool} (hswo : StrictWeakOrder less) :
    ∀ (k : Nat) (l : List α), HeapFrom less l k → HeapFrom less (heapifyFrom less k l) 0 := by
  intro k
  induction k with
  | zero => intro l h; exact h
  | succ k ih =>
    intro l h
    rw [heapifyFrom]
    apply ih
    apply siftDown_heap hswo k _ l k rfl (Nat.le_refl _)
    constructor
    · intro m a b hm hkm hne ha hb
      exact h m a b hm (by omega) ha hb
    · intro m a b hk0 hkk
      omega

theorem isHeap_iff_heapFrom (less : α → α → Bool) (l : List α) :
    IsHeap less l ↔ HeapFrom less l 0 := by
  constructor
  · intro h m a b hm _ ha hb; exact h m a b hm ha hb
  · intro h m a b hm ha hb; exact h m a b hm (Nat.zero_le _) ha hb

theorem NewPriorityQueue_heap {less : α → α → Bool} (hswo : StrictWeakOrder less)
    (seed : List α) :
    IsHeap less (NewPriorityQueue less seed).list ∧ (NewPriorityQueue less seed).list.Perm seed ∧
      (NewPriorityQueue less seed).less = less := by
  refine ⟨?_, heapifyFrom_perm hswo _ _, rfl⟩
  rw [isHeap_iff_heapFrom]
  apply heapifyFrom_heap hswo
  intro m a b hm hkm ha hb
  have h1 := (List.getElem?_eq_some.1 ha).1
  omega

theorem Push_heap (q : PriorityQueue α) (v : α) (hswo : StrictWeakOrder q.less)
    (hh : IsHeap q.less q.list) :
    IsHeap q.less (q.Push v).list ∧ (q.Push v).list.Perm (q.list ++ [v]) ∧
      (q.Push v).less = q.less := by
  refine ⟨?_, siftUp_perm q.less _ _, rfl⟩
  apply siftUp_heap hswo _ _ (by simp)
  constructor
  · intro j a b hj hne ha hb
    have h1 := (List.getElem?_eq_some.1 ha).1
    simp only [List.length_append, List.length_singleton] at h1
    rw [List.getElem?_append_left (by omega)] at ha hb
    exact hh j a b hj ha hb
  · intro j a b _ hj hp ha _
    have h1 := (List.getElem?_eq_some.1 ha).1
    simp only [List.length_append, List.length_singleton] at h1
    omega

theorem pushAll_heap :
    ∀ (vs : List α) (q : PriorityQueue α), StrictWeakOrder q.less → IsHeap q.less q.list →
      IsHeap q.less (pushAll q vs).list ∧ (pushAll q vs).list.Perm (q.list ++ vs) ∧
        (pushAll q vs).less = q.less := by
  intro vs
  induction vs with
  | nil =>
    intro q _ hh
    exact ⟨hh, by simp [pushAll], rfl⟩
  | cons v vs ih =>
    intro q hswo hh
    obtain ⟨h1, h2, h3⟩ := Push_heap q v hswo hh
    obtain ⟨g1, g2, g3⟩ := ih (q.Push v) (by rw [h3]; exact hswo) (by rw [h3]; exact h1)
    have e : pushAll q (v :: vs) = pushAll (q.Push v) vs := rfl
    rw [e]
    refine ⟨by rw [← h3]; exact g1, ?_, by rw [g3, h3]⟩
    refine g2.trans ?_
    have := List.Perm.append_right vs h2
    simpa using this

theorem heap_root_min {less : α → α → Bool} (hswo : StrictWeakOrder less) (l : List α)
    (hh : IsHeap less l) (r : α) (hr : l[0]? = some r) :
    ∀ (j : Nat) (a : α), l[j]? = some a → less a r = false := by
  intro j
  induction j using Nat.strong_induction_on with
  | _ j ih =>
    intro a ha
    by_cases c : j = 0
    · subst c
      rw [hr] at ha; cases ha
      exact hswo.irrefl _
    · have h1 := (List.getElem?_eq_some.1 ha).1
      have hp : (j - 1) / 2 < l.length := by omega
      have h2 := hh j a _ (by omega) ha (List.getElem?_eq_getElem hp)
      have h3 := ih ((j - 1) / 2) (by omega) _ (List.getElem?_eq_getElem hp)
      exact hswo.le_trans r _ a h3 h2

theorem popPrep_perm (x : α) (t : List α) :
    (((x :: t).set 0 ((x :: t).getLast (List.cons_ne_nil x t))).dropLast).Perm t := by
  cases t with
  | nil => simp
  | cons y t =>
    have h : (y :: t) ≠ [] := List.cons_ne_nil y t
    have e : ((x :: y :: t).set 0 ((x :: y :: t).getLast (List.cons_ne_nil x (y :: t)))).dropLast
        = (y :: t).getLast h :: (y :: t).dropLast := by
      simp
    rw [e]
    have h2 := List.dropLast_append_getLast h
    have h3 : ([(y :: t).getLast h] ++ (y :: t).dropLast).Perm
        ((y :: t).dropLast ++ [(y :: t).getLast h]) := List.perm_append_comm
    rw [h2] at h3
    exact h3

theorem getElem?_popPrep (x : α) (t : List α) (m : Nat) (hm : 0 < m) (a : α)
    (ha : (((x :: t).set 0 ((x :: t).getLast (List.cons_ne_nil x t))).dropLast)[m]? = some a) :
    (x :: t)[m]? = some a := by
  rw [List.getElem?_dropLast] at ha
  split at ha
  · rw [List.getElem?_set] at ha
    rw [if_neg (by omega)] at ha
    exact ha
  · cases ha

theorem Pop_heap (q : PriorityQueue α) (x : α) (t : List α) (hswo : StrictWeakOrder q.less)
    (hh : IsHeap q.less q.list) (hl : q.list = x :: t) :
    ∃ q2, q.Pop = .value x q2 ∧ q2.less = q.less ∧ IsHeap q.less q2.list ∧ q2.list.Perm t := by
  refine ⟨⟨q.less, siftDown q.less
    (((x :: t).set 0 ((x :: t).getLast (List.cons_ne_nil x t))).dropLast) 0⟩, ?_, rfl, ?_, ?_⟩
  · unfold PriorityQueue.Pop
    rw [hl]
  · rw [isHeap_iff_heapFrom]
    apply siftDown_heap hswo 0 _ _ 0 rfl (Nat.le_refl _)
    constructor
    · intro m a b hm _ hne ha hb
      rw [hl] at hh
      exact hh m a b hm (getElem?_popPrep x t m hm a ha)
        (getElem?_popPrep x t _ (by omega) b hb)
    · intro m a b h0
      omega
  · exact (siftDown_perm hswo _ _ 0 rfl).trans (popPrep_perm x t)

theorem popN_sorted :
    ∀ (n : Nat) (q : PriorityQueue α), StrictWeakOrder q.less → IsHeap q.less q.list →
      q.list.length = n → (popN n q).Perm q.list ∧ SortedBy q.less (popN n q) := by
  intro n
  induction n with
  | zero =>
    intro q _ _ hn
    have : q.list = [] := List.length_eq_zero.1 hn
    rw [this]
    exact ⟨List.Perm.refl _, List.Pairwise.nil⟩
  | succ n ih =>
    intro q hswo hh hn
    cases hl : q.list with
    | nil => rw [hl] at hn; cases hn
    | cons x t =>
      obtain ⟨q2, hpop, hless, hh2, hperm⟩ := Pop_heap q x t hswo hh hl
      have hlen2 : q2.list.length = n := by
        rw [hperm.length_eq]
        rw [hl] at hn
        simpa using hn
      obtain ⟨g1, g2⟩ := ih q2 (by rw [hless]; exact hswo) (by rw [hless]; exact hh2) hlen2
      have e : popN (n + 1) q = x :: popN n q2 := by
        simp only [popN, hpop]
      rw [e]
      refine ⟨List.Perm.cons x (g1.trans hperm), ?_⟩
      refine List.Pairwise.cons ?_ (by rw [← hless]; exact g2)
      intro b hb
      have hbt : b ∈ t := hperm.subset (g1.subset hb)
      have hbq : b ∈ q.list := by rw [hl]; exact List.mem_cons_of_mem x hbt
      obtain ⟨j, hj, hjb⟩ := List.getElem_of_mem hbq
      apply heap_root_min hswo q.list hh x (by rw [hl]; simp) j b
      rw [List.getElem?_eq_getElem hj, hjb]

/-! ## Sorted arrangements of the same values -/

theorem sorted_perm_le {less : α → α → Bool} (hswo : StrictWeakOrder less) (l1 l2 : List α)
    (hp : l1.Perm l2) (hs1 : SortedBy less l1) (hs2 : SortedBy less l2) :
    ∀ i (h1 : i < l1.length) (h2 : i < l2.length), less l1[i] l2[i] = false := by
  intro i h1 h2
  have s1 := List.pairwise_iff_getElem.1 hs1
  have s2 := List.pairwise_iff_getElem.1 hs2
  cases hlt : less l1[i] l2[i] with
  | false => rfl
  | true =>
    exfalso
    have hcount := hp.countP_eq (fun y => less y l2[i])
    have hup : List.countP (fun y => less y l2[i]) l2 ≤ i := by
      have e : List.countP (fun y => less y l2[i]) l2
          = List.countP (fun y => less y l2[i]) (l2.take i)
            + List.countP (fun y => less y l2[i]) (l2.drop i) := by
        rw [← List.countP_append, List.take_append_drop]
      have z : List.countP (fun y => less y l2[i]) (l2.drop i) = 0 := by
        rw [List.countP_eq_zero]
        intro a ha
        obtain ⟨j, hj, hja⟩ := List.getElem_of_mem ha
        rw [List.getElem_drop] at hja
        simp only [List.length_drop] at hj
        rw [← hja]
        by_cases c : j = 0
        · subst c
          simp [hswo.irrefl]
        · have := s2 i (i + j) h2 (by omega) (by omega)
          simp [this]
      have u : List.countP (fun y => less y l2[i]) (l2.take i) ≤ (l2.take i).length :=
        List.countP_le_length _
      rw [List.length_take] at u
      omega
    have hlow : i + 1 ≤ List.countP (fun y => less y l2[i]) l1 := by
      have e : List.countP (fun y => less y l2[i]) l1
          = List.countP (fun y => less y l2[i]) (l1.take (i + 1))
            + List.countP (fun y => less y l2[i]) (l1.drop (i + 1)) := by
        rw [← List.countP_append, List.take_append_drop]
      have f : List.countP (fun y => less y l2[i]) (l1.take (i + 1)) = (l1.take (i + 1)).length := by
        rw [List.countP_eq_length]
        intro a ha
        obtain ⟨j, hj, hja⟩ := List.getElem_of_mem ha
        rw [List.getElem_take] at hja
        simp only [List.length_take] at hj
        rw [← hja]
        by_cases c : j = i
        · subst c; exact hlt
        · have := s1 j i (by omega) h1 (by omega)
          cases hswo.cotrans _ l1[j] _ hlt with
          | inl h => rw [h] at this; cases this
          | inr h => exact h
      rw [List.length_take] at f
      omega
    omega

theorem sorted_perm_equiv {less : α → α → Bool} (hswo : StrictWeakOrder less) (l1 l2 : List α)
    (hp : l1.Perm l2) (hs1 : SortedBy less l1) (hs2 : SortedBy less l2) :
    l2.length = l1.length ∧
      ∀ (i : Nat) (x y : α), l1[i]? = some x → l2[i]? = some y → equivUnder less x y := by
  refine ⟨hp.length_eq.symm, ?_⟩
  intro i x y hx hy
  obtain ⟨h1, rfl⟩ := List.getElem?_eq_some.1 hx
  obtain ⟨h2, rfl⟩ := List.getElem?_eq_some.1 hy
  exact ⟨sorted_perm_le hswo l1 l2 hp hs1 hs2 i h1 h2,
    sorted_perm_le hswo l2 l1 hp.symm hs2 hs1 i h2 h1⟩

theorem sorted_perm_eq {less : α → α → Bool} (hswo : StrictWeakOrder less) (l1 l2 : List α)
    (hp : l1.Perm l2) (hs1 : SortedBy less l1) (hs2 : SortedBy less l2)
    (hanti : ∀ a b, equivUnder less a b → a = b) : l1 = l2 := by
  obtain ⟨hlen, heq⟩ := sorted_perm_equiv hswo l1 l2 hp hs1 hs2
  apply List.ext_getElem?
  intro i
  by_cases c : i < l1.length
  · have c2 : i < l2.length := by omega
    rw [List.getElem?_eq_getElem c, List.getElem?_eq_getElem c2]
    congr 1
    exact hanti _ _ (heq i _ _ (List.getElem?_eq_getElem c) (List.getElem?_eq_getElem c2))
  · rw [List.getElem?_eq_none (by omega), List.getElem?_eq_none (by omega)]

/-! ## Claims on the priority queue -/

theorem pushThenPop_sorted (less : α → α → Bool) (hswo : StrictWeakOrder less) (vs : List α) :
    (pushThenPop (NewPriorityQueue less []) vs).Perm vs ∧
      SortedBy less (pushThenPop (NewPriorityQueue less []) vs) := by
  obtain ⟨h1, h2, h3⟩ := NewPriorityQueue_heap hswo ([] : List α)
  obtain ⟨g1, g2, g3⟩ := pushAll_heap vs (NewPriorityQueue less [])
    (by rw [h3]; exact hswo) (by rw [h3]; exact h1)
  rw [h3] at g1 g3
  have hnil : (NewPriorityQueue less ([] : List α)).list = [] := List.Perm.eq_nil h2
  rw [hnil, List.nil_append] at g2
  obtain ⟨k1, k2⟩ := popN_sorted vs.length (pushAll (NewPriorityQueue less []) vs)
    (by rw [g3]; exact hswo) (by rw [g3]; exact g1) g2.length_eq
  rw [g3] at k2
  exact ⟨k1.trans g2, k2⟩

theorem intLess_swo : StrictWeakOrder intLess := intLess_strictWeakOrder

/-- C14 (on the priority queue modelled from the spec): for a strict weak ordering
`less` and a list of N values, pushing the values into a queue built with
`less` and calling `Pop` N times yields a rearrangement of the values in which
no value compares `less` than an earlier one; it agrees position by position,
up to equality under the comparator, with every sorted arrangement of the
values (so the order of the pushes does not matter), and it is that sorted
list when values equal under the comparator are equal.  The same holds for the
int queue. -/
theorem Pop_order_matches_sort (less : α → α → Bool) (hswo : StrictWeakOrder less)
    (vs : List α) (lessInt : Int → Int → Bool) (hInt : StrictWeakOrder lessInt)
    (ns : List Int) :
    (pushThenPop (NewPriorityQueue less []) vs).Perm vs ∧
      SortedBy less (pushThenPop (NewPriorityQueue less []) vs) ∧
      (∀ (i : Nat) (x y : α), (pushThenPop (NewPriorityQueue less []) vs)[i]? = some x →
        (pushThenPop (NewPriorityQueue less []) vs)[i + 1]? = some y → less y x = false) ∧
      (∀ l2 : List α, l2.Perm vs → SortedBy less l2 →
        l2.length = (pushThenPop (NewPriorityQueue less []) vs).length ∧
        ∀ (i : Nat) (x y : α), (pushThenPop (NewPriorityQueue less []) vs)[i]? = some x →
          l2[i]? = some y → equivUnder less x y) ∧
      ((∀ a b, equivUnder less a b → a = b) → ∀ l2 : List α, l2.Perm vs → SortedBy less l2 →
        pushThenPop (NewPriorityQueue less []) vs = l2) ∧
      (pushThenPop (NewIntPriorityQueue lessInt []) ns).Perm ns ∧
      SortedBy lessInt (pushThenPop (NewIntPriorityQueue lessInt []) ns) := by
  obtain ⟨h1, h2⟩ := pushThenPop_sorted less hswo vs
  obtain ⟨g1, g2⟩ := pushThenPop_sorted lessInt hInt ns
  refine ⟨h1, h2, ?_, ?_, ?_, g1, g2⟩
  · intro i x y hx hy
    obtain ⟨hi, rfl⟩ := List.getElem?_eq_some.1 hx
    obtain ⟨hj, rfl⟩ := List.getElem?_eq_some.1 hy
    exact List.pairwise_iff_getElem.1 h2 i (i + 1) hi hj (by omega)
  · intro l2 hp hs
    exact sorted_perm_equiv hswo _ l2 (h1.trans hp.symm) h2 hs
  · intro hanti l2 hp hs
    exact sorted_perm_eq hswo _ l2 (h1.trans hp.symm) h2 hs hanti

theorem Pop_order_matches_sort_witness :
    StrictWeakOrder intLess ∧ StrictWeakOrder intLess ∧
    ((pushThenPop (NewPriorityQueue intLess []) [5, 3, 8, 1]).Perm [5, 3, 8, 1] ∧
      SortedBy intLess (pushThenPop (NewPriorityQueue intLess []) [5, 3, 8, 1]) ∧
      (∀ (i : Nat) (x y : Int), (pushThenPop (NewPriorityQueue intLess []) [5, 3, 8, 1])[i]? = some x →
        (pushThenPop (NewPriorityQueue intLess []) [5, 3, 8, 1])[i + 1]? = some y →
        intLess y x = false) ∧
      (∀ l2 : List Int, l2.Perm [5, 3, 8, 1] → SortedBy intLess l2 →
        l2.length = (pushThenPop (NewPriorityQueue intLess []) [5, 3, 8, 1]).length ∧
        ∀ (i : Nat) (x y : Int), (pushThenPop (NewPriorityQueue intLess []) [5, 3, 8, 1])[i]? = some x →
          l2[i]? = some y → equivUnder intLess x y) ∧
      ((∀ a b, equivUnder intLess a b → a = b) → ∀ l2 : List Int, l2.Perm [5, 3, 8, 1] →
        SortedBy intLess l2 → pushThenPop (NewPriorityQueue intLess []) [5, 3, 8, 1] = l2) ∧
      (pushThenPop (NewIntPriorityQueue intLess []) [2, 1]).Perm [2, 1] ∧
      SortedBy intLess (pushThenPop (NewIntPriorityQueue intLess []) [2, 1])) :=
  ⟨intLess_swo, intLess_swo,
    Pop_order_matches_sort intLess intLess_swo [5, 3, 8, 1] intLess intLess_swo [2, 1]⟩

/-- C15 (on the priority queue modelled from the spec): for a non-empty queue,
`Peek()` returns the root and leaves the queue as it was (same contents, same
`Len()`), and the `Pop()` that follows returns the same value. -/
theorem Peek_spec (q : PriorityQueue α) (hne : 0 < q.Len) :
    ∃ v q1 q2, q.Peek = .value v q1 ∧ q.list[0]? = some v ∧ q1 = q ∧ q1.Len = q.Len ∧
      q1.Pop = .value v q2 := by
  cases hl : q.list with
  | nil =>
    unfold PriorityQueue.Len at hne
    rw [hl] at hne
    cases hne
  | cons x t =>
    refine ⟨x, q, ⟨q.less, siftDown q.less
      (((x :: t).set 0 ((x :: t).getLast (List.cons_ne_nil x t))).dropLast) 0⟩,
      ?_, by simp, rfl, rfl, ?_⟩
    · unfold PriorityQueue.Peek
      rw [hl]
    · unfold PriorityQueue.Pop
      rw [hl]

theorem Peek_spec_witness :
    0 < (PriorityQueue.mk intLess [1, 3, 2]).Len ∧
    ∃ v q1 q2, (PriorityQueue.mk intLess [1, 3, 2]).Peek = .value v q1 ∧
      (PriorityQueue.mk intLess [1, 3, 2]).list[0]? = some v ∧
      q1 = PriorityQueue.mk intLess [1, 3, 2] ∧
      q1.Len = (PriorityQueue.mk intLess [1, 3, 2]).Len ∧ q1.Pop = .value v q2 :=
  ⟨by decide, Peek_spec (PriorityQueue.mk intLess [1, 3, 2]) (by decide)⟩

/-- C16 (on the priority queue modelled from the spec): on a queue of size 0,
`Peek()` and `Pop()` each return the empty-queue error and leave the queue as
it was; `Push(value)` is total and leaves a queue one element longer. -/
theorem empty_queue_spec (q : PriorityQueue α) (hq : q.Len = 0) :
    q.Peek = .emptyQueue q ∧ q.Pop = .emptyQueue q ∧
      ∀ (p : PriorityQueue α) (v : α), (p.Push v).Len = p.Len + 1 := by
  have hl : q.list = [] := List.length_eq_zero.1 hq
  refine ⟨?_, ?_, ?_⟩
  · unfold PriorityQueue.Peek
    rw [hl]
  · unfold PriorityQueue.Pop
    rw [hl]
  · intro p v
    unfold PriorityQueue.Len PriorityQueue.Push
    rw [(siftUp_perm p.less p.list.length (p.list ++ [v])).length_eq]
    simp

theorem empty_queue_spec_witness :
    (NewPriorityQueue intLess []).Len = 0 ∧
    ((NewPriorityQueue intLess []).Peek = .emptyQueue (NewPriorityQueue intLess []) ∧
      (NewPriorityQueue intLess []).Pop = .emptyQueue (NewPriorityQueue intLess []) ∧
      ∀ (p : PriorityQueue Int) (v : Int), (p.Push v).Len = p.Len + 1) :=
  ⟨by decide, empty_queue_spec (NewPriorityQueue intLess []) (by decide)⟩

/-- Counterexample to C17: after `Push(1)` and `Push(2)` on an empty queue with
the comparator `<`, the backing sequence is `[1 2]` and the parent 1 compares
`less` than its child 2. -/
theorem parent_less_than_child :
    (applyOps (NewPriorityQueue intLess []) [.push 1, .push 2]).list = [1, 2] ∧
      ¬ ParentNeverLess intLess (applyOps (NewPriorityQueue intLess []) [.push 1, .push 2]).list := by
  have h : (applyOps (NewPriorityQueue intLess []) [.push 1, .push 2]).list = [1, 2] := by
    simp [applyOps, QueueOp.apply, NewPriorityQueue, heapifyFrom, PriorityQueue.Push, siftUp,
      intLess]
  refine ⟨h, ?_⟩
  rw [h]
  intro hp
  have := hp 1 2 1 (by decide) rfl rfl
  simp [intLess] at this

theorem applyOps_heap :
    ∀ (ops : List (QueueOp α)) (q : PriorityQueue α), StrictWeakOrder q.less →
      IsHeap q.less q.list →
      IsHeap q.less (applyOps q ops).list ∧ (applyOps q ops).less = q.less := by
  intro ops
  induction ops with
  | nil => intro q _ hh; exact ⟨hh, rfl⟩
  | cons op ops ih =>
    intro q hswo hh
    have e : applyOps q (op :: ops) = applyOps (QueueOp.apply q op) ops := rfl
    have step : IsHeap q.less (QueueOp.apply q op).list ∧ (QueueOp.apply q op).less = q.less := by
      cases op with
      | push v =>
        obtain ⟨h1, _, h3⟩ := Push_heap q v hswo hh
        exact ⟨h1, h3⟩
      | pop =>
        cases hl : q.list with
        | nil =>
          have hp : q.Pop = .emptyQueue q := by
            unfold PriorityQueue.Pop
            rw [hl]
          simp only [QueueOp.apply, hp]
          rw [hl] at hh
          rw [hl]
          exact ⟨hh, trivial⟩
        | cons x t =>
          obtain ⟨q2, hp, h2, h3, _⟩ := Pop_heap q x t hswo hh hl
          simp only [QueueOp.apply, hp]
          exact ⟨h3, h2⟩
    obtain ⟨g1, g2⟩ := ih (QueueOp.apply q op) (by rw [step.2]; exact hswo)
      (by rw [step.2]; exact step.1)
    rw [e]
    exact ⟨by rw [← step.2]; exact g1, by rw [g2, step.2]⟩

/-- C17, amended (on the priority queue modelled from the spec): for a strict
weak ordering `less`, starting from a queue produced by construction (empty or
heapified from seed elements), after every sequence of `Push` and `Pop` calls,
for every non-root index `i` with parent index `(i-1)/2`, `less(element,
parent)` is false: no child compares `less` than its parent, and the root is
not `less`-greater than any element. -/
theorem heap_invariant (less : α → α → Bool) (hswo : StrictWeakOrder less) (seed : List α)
    (ops : List (QueueOp α)) :
    IsHeap less (applyOps (NewPriorityQueue less seed) ops).list ∧
      (∀ j x y, 0 < j → (applyOps (NewPriorityQueue less seed) ops).list[j]? = some x →
        (applyOps (NewPriorityQueue less seed) ops).list[(j - 1) / 2]? = some y →
        less x y = false) ∧
      (∀ (j : Nat) (x r : α), (applyOps (NewPriorityQueue less seed) ops).list[j]? = some x →
        (applyOps (NewPriorityQueue less seed) ops).list[0]? = some r → less x r = false) := by
  obtain ⟨h1, _, h3⟩ := NewPriorityQueue_heap hswo seed
  obtain ⟨g1, _⟩ := applyOps_heap ops (NewPriorityQueue less seed) (by rw [h3]; exact hswo)
    (by rw [h3]; exact h1)
  rw [h3] at g1
  exact ⟨g1, g1, fun j x r hx hr => heap_root_min hswo _ g1 r hr j x hx⟩

theorem heap_invariant_witness :
    StrictWeakOrder intLess ∧
    (IsHeap intLess (applyOps (NewPriorityQueue intLess [5, 3, 8]) [.push 1, .pop, .push 2]).list ∧
      (∀ j x y, 0 < j →
        (applyOps (NewPriorityQueue intLess [5, 3, 8]) [.push 1, .pop, .push 2]).list[j]? = some x →
        (applyOps (NewPriorityQueue intLess [5, 3, 8]) [.push 1, .pop, .push 2]).list[(j - 1) / 2]?
          = some y →
        intLess x y = false) ∧
      (∀ (j : Nat) (x r : Int),
        (applyOps (NewPriorityQueue intLess [5, 3, 8]) [.push 1, .pop, .push 2]).list[j]? = some x →
        (applyOps (NewPriorityQueue intLess [5, 3, 8]) [.push 1, .pop, .push 2]).list[0]? = some r →
        intLess x r = false)) :=
  ⟨intLess_swo,
    heap_invariant intLess intLess_swo [5, 3, 8] [.push 1, .pop, .push 2]⟩

end Villa
